import Mathlib

/-!
# Verification of the Tailored job-posting extraction pipeline

Shallow embedding of `src/backend/scraper.py` (the Page Fetcher's pure
post-processing, the Section Segmenter `parse_job_text`, the Skill
Extractor `extract_skills`, the Basic Info Extractor `extract_basic_info`,
the Aggregator `scrape_job_posting`) and of `format_job_for_prompt` from
`src/backend/main.py`.

Python strings are modelled as Lean `String` / `List Char`.  The Python
`re` engine is modelled by a small backtracking matcher (`mtch`) over a
regex AST (`RE`) covering exactly the constructs the source patterns use;
alternation prefers the left branch and quantifiers are greedy, matching
CPython's backtracking order.  `re.IGNORECASE` is modelled with ASCII
case folding (`Char.toLower`); the `\s`, `\d`, `\w` classes are modelled
with their ASCII members (the source texts of interest are ASCII).
The browser fetch (`fetch_page_text`) performs I/O; its outcome is passed
to the Aggregator model as an explicit `Option (text × metadata)`
parameter — `none` models a raised fetch exception.
-/

/-- Python `\s` (ASCII part): the whitespace characters recognised by
`str.strip`, `re.sub(r'\s+', …)` etc. -/
def pySpace (c : Char) : Bool :=
  c == ' ' || c == '\t' || c == '\n' || c == '\x0d' || c == '\x0b' || c == '\x0c'

/-- Python `\d` (ASCII part). -/
def pyDigit (c : Char) : Bool := c.isDigit

/-- Python `\w` (ASCII part), used for `\b` word boundaries. -/
def pyWord (c : Char) : Bool := c.isAlphanum || c == '_'

/-- ASCII lowercasing of a character list (Python `str.lower` on ASCII). -/
def lowerL (l : List Char) : List Char := l.map Char.toLower

/-- `leadsWith n h` : `n` is an initial segment of `h`. -/
def leadsWith : List Char → List Char → Bool
  | [], _ => true
  | _ :: _, [] => false
  | a :: as, b :: bs => a == b && leadsWith as bs

/-- `occursIn n h` : `n` occurs as a contiguous segment of `h`
(Python `n in h` on strings). -/
def occursIn : List Char → List Char → Bool
  | n, [] => leadsWith n []
  | n, c :: t => leadsWith n (c :: t) || occursIn n t

/-- String version of `occursIn`. -/
def occursInS (n h : String) : Bool := occursIn n.toList h.toList

/-- Collapse every maximal whitespace run to a single `' '`
(Python `re.sub(r'\s+', ' ', text)`). -/
def collapseWs : List Char → List Char
  | [] => []
  | [c] => if pySpace c then [' '] else [c]
  | a :: b :: rest =>
    if pySpace a then
      if pySpace b then collapseWs (b :: rest)
      else ' ' :: collapseWs (b :: rest)
    else a :: collapseWs (b :: rest)

/-- Remove trailing whitespace (right half of Python `str.strip`). -/
def stripRight : List Char → List Char
  | [] => []
  | c :: rest =>
    match stripRight rest with
    | [] => if pySpace c then [] else [c]
    | r => c :: r

/-- Python `str.strip()` (whitespace on both ends). -/
def pyStrip (l : List Char) : List Char := stripRight (l.dropWhile pySpace)

/-- Character-level body of `clean_text`. -/
def cleanChars (l : List Char) : List Char := pyStrip (collapseWs l)

/-- `clean_text` from `scraper.py`: collapse whitespace runs, then strip.
Source: `re.sub(r'\s+', ' ', text).strip()` (the `if not text` guard is
the identity on the empty string). -/
def clean_text (text : String) : String :=
  String.mk (cleanChars text.toList)

example : clean_text "  hello \n\t world " = "hello world" := by decide
example : occursInS "ell" "hello" = true := by decide
example : occursInS "elo" "hello" = false := by decide

/-!
## A backtracking regex matcher for the constructs used in `scraper.py`

Constructs appearing in the source patterns: case-folded literals,
character classes (`\s`, `\d`, `[:\-]`, `[\s\-]`, `[-–]`, `[:\s]`, `.`),
non-capturing groups, alternation `|` (left-preferring), option `?`
(greedy), `*`/`+` on a character class (greedy), bounded repetition
`.{lo,hi}` on a class (greedy), capturing groups, the `re.MULTILINE`
anchors `^`/`$`, and the word boundary `\b`.  Every quantifier in the
source applies to a single character class, so quantifiers are modelled
as class repetitions, which keeps the matcher structurally recursive.
-/

/-- Regex AST.  Quantified subterms are always character classes, as in
the source patterns. -/
inductive RE where
  | eps : RE
  | cls (f : Char → Bool) : RE
  | seq (a b : RE) : RE
  | alt (a b : RE) : RE
  | opt (a : RE) : RE
  | star (f : Char → Bool) : RE
  | rep (f : Char → Bool) (lo hi : Nat) : RE
  | grp (n : Nat) (a : RE) : RE
  | lineStart : RE
  | lineEnd : RE
  | wordB : RE

/-- Matcher state: the character before the current position (`none` at
the start of the text), the absolute position, the remaining text, and
the captures recorded so far (most recent first). -/
structure MSt where
  prev : Option Char
  pos : Nat
  rest : List Char
  caps : List (Nat × List Char)
deriving DecidableEq

/-- States reachable by consuming `0, 1, 2, …` characters of class `f`,
in that order (list index = number of characters consumed). -/
def starChain (f : Char → Bool) (caps : List (Nat × List Char)) (pos : Nat)
    (prev : Option Char) : List Char → List MSt
  | [] => [⟨prev, pos, [], caps⟩]
  | c :: r =>
    ⟨prev, pos, c :: r, caps⟩ ::
      (if f c then starChain f caps (pos + 1) (some c) r else [])

/-- `none = false` word-status for boundary tests. -/
def wordOpt : Option Char → Bool
  | none => false
  | some c => pyWord c

/-- The backtracking matcher: all end states of a match of `r` starting
at `s`, in CPython preference order (the head is the match Python
selects). -/
def mtch : RE → MSt → List MSt
  | .eps, s => [s]
  | .cls f, s =>
    match s.rest with
    | [] => []
    | c :: r => if f c then [⟨some c, s.pos + 1, r, s.caps⟩] else []
  | .seq a b, s => (mtch a s).flatMap (mtch b)
  | .alt a b, s => mtch a s ++ mtch b s
  | .opt a, s => mtch a s ++ [s]
  | .star f, s => (starChain f s.caps s.pos s.prev s.rest).reverse
  | .rep f lo hi, s =>
    (((starChain f s.caps s.pos s.prev s.rest).drop lo).take (hi + 1 - lo)).reverse
  | .grp n a, s =>
    (mtch a s).map fun s' =>
      ⟨s'.prev, s'.pos, s'.rest, (n, s.rest.take (s'.pos - s.pos)) :: s'.caps⟩
  | .lineStart, s =>
    if s.prev = none ∨ s.prev = some '\n' then [s] else []
  | .lineEnd, s =>
    if s.rest = [] ∨ s.rest.head? = some '\n' then [s] else []
  | .wordB, s =>
    if wordOpt s.prev != wordOpt s.rest.head? then [s] else []

/-- The capture of group `n` (most recent first, as in CPython a later
capture of the same group overrides an earlier one). -/
def capLookup (caps : List (Nat × List Char)) (n : Nat) : Option (List Char) :=
  (caps.find? fun p => p.1 == n).map (·.2)

/-- `match.lastindex`: the largest group number that captured (`0` when
no group captured; the source only compares it against `2` and `3`). -/
def lastIdx (caps : List (Nat × List Char)) : Nat :=
  caps.foldr (fun p m => max p.1 m) 0

/-- `re.search` semantics: try a match at each position from left to
right, returning the captures of the first successful one. -/
def searchAux (re : RE) : Nat → MSt → Option (List (Nat × List Char))
  | 0, _ => none
  | fuel + 1, s =>
    match (mtch re s).head? with
    | some s' => some s'.caps
    | none =>
      match s.rest with
      | [] => none
      | c :: r => searchAux re fuel ⟨some c, s.pos + 1, r, s.caps⟩

/-- `re.search` over a full text. -/
def searchRe (re : RE) (text : String) : Option (List (Nat × List Char)) :=
  searchAux re (text.toList.length + 1) ⟨none, 0, text.toList, []⟩

/-- `re.finditer` semantics: repeatedly find the leftmost match,
resuming after its end; produces `(start, end, captures)` triples. -/
def finditerAux (re : RE) : Nat → MSt → List (Nat × Nat × List (Nat × List Char))
  | 0, _ => []
  | fuel + 1, s =>
    match (mtch re s).head? with
    | some s' =>
      if s.pos < s'.pos then
        (s.pos, s'.pos, s'.caps) :: finditerAux re fuel ⟨s'.prev, s'.pos, s'.rest, []⟩
      else
        match s.rest with
        | [] => [(s.pos, s'.pos, s'.caps)]
        | c :: r => (s.pos, s'.pos, s'.caps) :: finditerAux re fuel ⟨some c, s.pos + 1, r, []⟩
    | none =>
      match s.rest with
      | [] => []
      | c :: r => finditerAux re fuel ⟨some c, s.pos + 1, r, []⟩

/-- `re.finditer` over a character list. -/
def finditer (re : RE) (chars : List Char) : List (Nat × Nat × List (Nat × List Char)) :=
  finditerAux re (chars.length + 1) ⟨none, 0, chars, []⟩

/-- `re.findall` for a pattern with a single capturing group (findall
returns the group when the pattern has exactly one). -/
def findallG1 (re : RE) (chars : List Char) : List String :=
  (finditer re chars).map fun m => String.mk ((capLookup m.2.2 1).getD [])

/-- Cut a text at the `(start, end)` spans of the matches of a split
pattern (`re.split` with no capturing groups drops the separators). -/
def splitAtMatches (chars : List Char) : List (Nat × Nat) → Nat → List (List Char)
  | [], prev => [chars.drop prev]
  | (st, en) :: ms, prev => ((chars.drop prev).take (st - prev)) :: splitAtMatches chars ms en

/-- `re.split` over a character list. -/
def pySplit (re : RE) (chars : List Char) : List (List Char) :=
  splitAtMatches chars ((finditer re chars).map fun m => (m.1, m.2.1)) 0

/-- Case-folded single-character literal (patterns are compiled with
`re.IGNORECASE`). -/
def lit1 (c : Char) : RE := RE.cls fun x => x.toLower == c.toLower

/-- Case-folded literal word. -/
def litS (s : String) : RE := s.toList.foldr (fun c r => RE.seq (lit1 c) r) RE.eps

/-- Exact (case-sensitive) single-character literal, for patterns
compiled without flags (the line-splitting pattern). -/
def litX (c : Char) : RE := RE.cls fun x => x == c

/-- Ordered alternation of a nonempty pattern list. -/
def altL : List RE → RE
  | [] => RE.eps
  | [r] => r
  | r :: rs => RE.alt r (altL rs)

/-- `\s*` -/
def wsS : RE := RE.star pySpace

/-- `\s+` -/
def wsP : RE := RE.seq (RE.cls pySpace) (RE.star pySpace)

/-- `.` (any character but a newline; `re.DOTALL` is not used). -/
def dotC (c : Char) : Bool := c != '\n'

/-- Sequence of a pattern list. -/
def seqL : List RE → RE
  | [] => RE.eps
  | [r] => r
  | r :: rs => RE.seq r (seqL rs)

example :
    (searchRe (seqL [litS "ab", RE.opt (lit1 'c'), lit1 'd']) "xxABd").isSome = true := by
  decide
example : findallG1 (seqL [RE.wordB, RE.grp 1 (litS "go"), RE.wordB]) "Go gone go".toList
    = ["Go", "go"] := by decide
example : pySplit (litX '-') "a-b-c".toList = ["a".toList, "b".toList, "c".toList] := by
  decide

/-!
## The Section Segmenter: `parse_job_text` (`scraper.py`, lines 111–213)

The five categories' heading pattern lists are transcribed one-for-one
from `section_patterns`; each source pattern has the shape
`(?:^|\n)\s*CORE\s*[:\-]?\s*(?:\n|$)` and is compiled with
`re.IGNORECASE | re.MULTILINE`.
-/

/-- `[:\-]` -/
def colonDash (c : Char) : Bool := c == ':' || c == '-'

/-- `[\s\-]` -/
def spaceDash (c : Char) : Bool := pySpace c || c == '-'

/-- The common wrapper `(?:^|\n)\s*CORE\s*[:\-]?\s*(?:\n|$)`. -/
def headWrap (core : RE) : RE :=
  seqL [RE.alt RE.lineStart (litX '\n'), wsS, core, wsS,
    RE.opt (RE.cls colonDash), wsS, RE.alt (litX '\n') RE.lineEnd]

/-- The five categories, in the source dictionary's insertion order. -/
inductive SecType where
  | responsibilities | requirements | preferred | benefits | about_company
deriving DecidableEq, Repr

/-- `section_patterns["responsibilities"]`. -/
def respPatterns : List RE :=
  [headWrap (seqL [RE.opt (seqL [litS "key", wsP]), litS "responsibilities"]),
   headWrap (seqL [litS "what", wsP, litS "you",
     RE.alt (litS "'ll") (seqL [RE.cls spaceDash, RE.star spaceDash, litS "will"]),
     wsP, RE.alt (litS "do") (litS "be doing")]),
   headWrap (seqL [litS "your", wsP, RE.alt (litS "role") (litS "responsibilities")]),
   headWrap (seqL [RE.alt (litS "the") (litS "this"), wsP, litS "role"]),
   headWrap (seqL [litS "about", wsP, litS "the", wsP,
     altL [litS "role", litS "job", litS "position"]]),
   headWrap (seqL [litS "job", wsP, litS "description"]),
   headWrap (seqL [litS "as", wsP, litS "a", wsP, RE.rep dotC 0 50,
     litS "you", wsP, litS "will"])]

/-- `section_patterns["requirements"]`. -/
def reqPatterns : List RE :=
  [headWrap (seqL [RE.opt (seqL [litS "minimum", wsP]),
     RE.alt (litS "requirements") (litS "qualifications")]),
   headWrap (seqL [litS "what", wsP, litS "we",
     RE.alt (litS "'re") (seqL [wsP, litS "are"]), wsP, litS "looking", wsP, litS "for"]),
   headWrap (seqL [litS "who", wsP, litS "you", wsP, litS "are"]),
   headWrap (seqL [RE.alt (litS "required") (litS "preferred"), wsP,
     altL [litS "skills", litS "experience", litS "qualifications"]]),
   headWrap (seqL [litS "you", RE.alt (litS "'ll") (seqL [wsP, litS "will"]), wsP,
     altL [litS "need", litS "have", litS "bring"]]),
   headWrap (seqL [RE.alt (litS "basic") (litS "minimum"), wsP, litS "qualifications"]),
   headWrap (seqL [litS "skills", wsP, RE.alt (litS "and") (litS "&"), wsP,
     RE.alt (litS "experience") (litS "qualifications")]),
   headWrap (seqL [litS "what", wsP, litS "you", RE.opt (litS "'ll"), wsP,
     RE.alt (litS "need") (litS "bring")])]

/-- `section_patterns["preferred"]`. -/
def prefPatterns : List RE :=
  [headWrap (altL [seqL [litS "nice", wsP, litS "to", wsP, litS "have"],
     litS "preferred", litS "bonus"]),
   headWrap (seqL [litS "preferred", wsP, litS "qualifications"]),
   headWrap (seqL [litS "it", RE.alt (litS "'s") (seqL [wsP, litS "is"]), wsP,
     litS "a", wsP, litS "plus", wsP, litS "if"])]

/-- `section_patterns["benefits"]`. -/
def benePatterns : List RE :=
  [headWrap (altL [litS "benefits", litS "perks",
     seqL [litS "what", wsP, litS "we", wsP, litS "offer"]]),
   headWrap (seqL [litS "compensation", wsP, RE.alt (litS "and") (litS "&"), wsP,
     litS "benefits"]),
   headWrap (seqL [litS "why", wsP,
     RE.alt (seqL [litS "join", wsP, litS "us"])
       (seqL [litS "work", wsP, RE.alt (litS "here") (seqL [litS "with", wsP, litS "us"])])])]

/-- `section_patterns["about_company"]`. -/
def aboutPatterns : List RE :=
  [headWrap (seqL [litS "about", wsP,
     altL [litS "us", seqL [litS "the", wsP, litS "company"], RE.rep dotC 1 30]]),
   headWrap (seqL [litS "who", wsP, litS "we", wsP, litS "are"]),
   headWrap (seqL [litS "company", wsP, RE.alt (litS "overview") (litS "description")])]

/-- The `section_patterns` dictionary, in insertion order. -/
def section_patterns : List (SecType × List RE) :=
  [(.responsibilities, respPatterns), (.requirements, reqPatterns),
   (.preferred, prefPatterns), (.benefits, benePatterns),
   (.about_company, aboutPatterns)]

/-- One entry of `section_positions`: category, end-of-header offset
(`match.end()`, the source's `"start"`), start-of-header offset
(`match.start()`), and the stripped header text. -/
structure SectionPos where
  type : SecType
  start : Nat
  header_start : Nat
  header : String
deriving DecidableEq, Repr

/-- All heading matches of all categories, in dictionary/pattern/scan
order (the order the source's nested loops append them). -/
def rawPositions (chars : List Char) : List SectionPos :=
  section_patterns.flatMap fun tp =>
    tp.2.flatMap fun p =>
      (finditer p chars).map fun m =>
        ⟨tp.1, m.2.1, m.1, String.mk (pyStrip ((chars.drop m.1).take (m.2.1 - m.1)))⟩

/-- The sort key `lambda x: x["start"]`, as a relation. -/
def posLe (a b : SectionPos) : Prop := a.start ≤ b.start

instance : DecidableRel posLe := fun a b => Nat.decLe a.start b.start

/-- `section_positions.sort(key=lambda x: x["start"])`.  CPython's sort
is stable; `insertionSort` is also stable, and stable sorts by the same
total preorder agree, so this computes the list the source computes. -/
def sortedPositions (chars : List Char) : List SectionPos :=
  (rawPositions chars).insertionSort posLe

/-- The loop `for i, section in enumerate(section_positions)`: the span
of each match runs from its content start to the next match's header
start (`end_pos = section_positions[i+1]["header_start"]`), or to the
end of the text for the last match. -/
def spanGo (chars : List Char) : List SectionPos → List (SecType × List Char)
  | [] => []
  | [p] => [(p.type, (chars.drop p.start).take (chars.length - p.start))]
  | p :: q :: rest =>
    (p.type, (chars.drop p.start).take (q.header_start - p.start)) :: spanGo chars (q :: rest)

/-- The category-tagged raw content spans of a text. -/
def spanList (chars : List Char) : List (SecType × List Char) :=
  spanGo chars (sortedPositions chars)

/-- The line-splitting pattern
`r'\n|•|●|▪|◦|‣|⁃|\*\s+|–\s+|-\s+|\d+\.\s+'` (compiled without flags). -/
def splitPat : RE :=
  altL [litX '\n', litX '•', litX '●', litX '▪', litX '◦', litX '‣', litX '⁃',
    RE.seq (litX '*') wsP, RE.seq (litX '–') wsP, RE.seq (litX '-') wsP,
    seqL [RE.cls pyDigit, RE.star pyDigit, litX '.', wsP]]

/-- The boilerplate denylist (`scraper.py` lines 194–206), verbatim. -/
def junkList : List String :=
  ["cookie", "privacy policy", "terms of", "copyright",
   "all rights reserved", "sign in", "log in", "apply now",
   "share this", "similar jobs", "back to", "openstreetmap",
   "maptiler", "zoom the map", "two fingers", "oracle corporation",
   "copy to clipboard", "legal notices", "carousel_paragraph",
   "job_description.share", "get future jobs", "join our talent",
   "careers loaded", "view more jobs", "leadership & governance",
   "financial results", "regulatory information", "shareholder",
   "annual general meeting", "privacy preference", "strictly necessary",
   "more information", "design your career", "develop your skills",
   "discover our culture", "viva la difference", "working with cancer"]

/-- `any(c in line for c in ['.', ',', ':'])`. -/
def hasPunctChars (l : List Char) : Bool :=
  l.any fun c => c == '.' || c == ',' || c == ':'

/-- The per-line filter (loop body, `scraper.py` lines 189–211), applied
to the already-`clean_text`-ed candidate: keep a line iff it is truthy
(non-empty), longer than 15 characters, its lowercased form contains no
denylisted phrase, and it is not (shorter than 25 characters and free of
`.`, `,`, `:`). -/
def keepLine (line : String) : Bool :=
  let l := line.toList
  !l.isEmpty && decide (15 < l.length) &&
  !(junkList.any fun j => occursIn j.toList (lowerL l)) &&
  !(decide (l.length < 25) && !hasPunctChars l)

/-- Lines 184–211 for one span: strip the span, split it into candidate
lines, normalize each with `clean_text`, and keep the survivors of
`keepLine`, in order. -/
def span_items (span : List Char) : List String :=
  let content := pyStrip span
  let lines := pySplit splitPat content
  (lines.map fun l => String.mk (cleanChars l)).filter keepLine

/-- The `sections` output dictionary. -/
structure Sections where
  responsibilities : List String
  requirements : List String
  preferred : List String
  benefits : List String
  about_company : List String
deriving DecidableEq, Repr

/-- The accumulated line items of one category: the source's single
loop appends each span's surviving items to that span's category list,
so each category's output is the concatenation, in span order, of the
items of the spans tagged with it. -/
def sectionsFor (chars : List Char) (ty : SecType) : List String :=
  ((spanList chars).filter fun s => decide (s.1 = ty)).flatMap fun s => span_items s.2

/-- `parse_job_text` from `scraper.py`. -/
def parse_job_text (text : String) : Sections :=
  ⟨sectionsFor text.toList .responsibilities,
   sectionsFor text.toList .requirements,
   sectionsFor text.toList .preferred,
   sectionsFor text.toList .benefits,
   sectionsFor text.toList .about_company⟩

example :
    (parse_job_text "Requirements\nA strong knowledge of testing, here.\n").requirements
      = ["A strong knowledge of testing, here."] := by decide

/-!
## The Skill Extractor: `extract_skills` (`scraper.py`, lines 78–108)
-/

/-- `\b( w1 | w2 | … )\b`, the shape of every skill pattern (compiled
with `re.IGNORECASE`; `findall` returns the single capturing group). -/
def skillAlt (ws : List String) : RE :=
  RE.seq RE.wordB (RE.seq (RE.grp 1 (altL (ws.map litS))) RE.wordB)

/-- `skill_patterns`, transcribed in order. -/
def skill_patterns : List RE :=
  [skillAlt ["Python", "Java", "JavaScript", "TypeScript", "C++", "C#", "Go", "Golang",
     "Rust", "Ruby", "PHP", "Swift", "Kotlin", "Scala"],
   skillAlt ["React", "Angular", "Vue", "Next.js", "Node.js", "Express", "Django",
     "Flask", "FastAPI", "Spring", ".NET", "Rails"],
   skillAlt ["AWS", "Amazon Web Services", "Azure", "GCP", "Google Cloud", "Docker",
     "Kubernetes", "K8s", "Jenkins", "CircleCI", "GitHub Actions"],
   skillAlt ["SQL", "MySQL", "PostgreSQL", "Postgres", "MongoDB", "Redis",
     "Elasticsearch", "DynamoDB", "Cassandra", "NoSQL"],
   skillAlt ["HTML", "CSS", "SASS", "LESS", "REST", "RESTful", "GraphQL", "gRPC",
     "API", "APIs"],
   skillAlt ["Machine Learning", "ML", "AI", "Artificial Intelligence", "Deep Learning",
     "NLP", "Computer Vision"],
   skillAlt ["TensorFlow", "PyTorch", "Keras", "scikit-learn", "pandas", "NumPy"],
   skillAlt ["Git", "GitHub", "GitLab", "Bitbucket", "SVN"],
   skillAlt ["Linux", "Unix", "Bash", "Shell", "PowerShell"],
   skillAlt ["Terraform", "Ansible", "Puppet", "Chef", "CloudFormation"],
   skillAlt ["Agile", "Scrum", "Kanban", "CI/CD", "DevOps", "SRE"],
   skillAlt ["Kafka", "RabbitMQ", "SQS", "Pub/Sub", "Message Queue"],
   skillAlt ["Microservices", "Distributed Systems", "System Design"],
   skillAlt ["OAuth", "JWT", "SSL", "TLS", "Security", "Authentication", "Authorization"]]

/-- Python `str.lower` (ASCII). -/
def lowerS (s : String) : String := String.mk (lowerL s.toList)

/-- The loop body: `if skill_lower not in skills: skills[skill_lower] = skill`
on an insertion-ordered association list. -/
def skillStep (acc : List (String × String)) (skill : String) : List (String × String) :=
  let k := lowerS skill
  if acc.any fun e => e.1 == k then acc else acc ++ [(k, skill)]

/-- The `skills` dictionary after processing all matches. -/
def skillFold (ms : List String) : List (String × String) := ms.foldl skillStep []

/-- All pattern matches, in pattern order then text order — the order in
which the source's nested `for pattern … for match …` loops see them. -/
def allSkillMatches (text : String) : List String :=
  skill_patterns.flatMap fun p => findallG1 p text.toList

/-- Code-point lexicographic `≤` on character lists (Python string
comparison). -/
def leChars : List Char → List Char → Bool
  | [], _ => true
  | _ :: _, [] => false
  | a :: as, b :: bs =>
    if a.toNat < b.toNat then true
    else if b.toNat < a.toNat then false
    else leChars as bs

/-- The sort relation of `sorted(…, key=str.lower)`. -/
def skLe (a b : String) : Prop := leChars (lowerL a.toList) (lowerL b.toList) = true

instance : DecidableRel skLe :=
  fun a b => Bool.decEq (leChars (lowerL a.toList) (lowerL b.toList)) true

/-- `extract_skills` from `scraper.py`: first-seen casing per
case-insensitive key, output sorted case-insensitively.  CPython's
`sorted` is stable and `insertionSort` is stable, and the keys are
pairwise distinct, so the two agree. -/
def extract_skills (text : String) : List String :=
  ((skillFold (allSkillMatches text)).map (·.2)).insertionSort skLe

example : extract_skills "We use go, Python and GO and golang." = ["go", "golang", "Python"] := by
  decide

/-!
## The Basic Info Extractor: `extract_basic_info` (`scraper.py`, lines 216–316)

Embedded JSON-LD metadata is modelled by `JVal` (JSON `null` is modelled
as field absence, and numbers as integers; the source postings' salary
bounds are integers, and `float`/`bool` bounds would make the source's
`f"{…:,}"` formatting path moot for every claim below).  A Python dict
is an insertion-ordered association list with distinct keys; `.get`
returns the first binding.
-/

/-- A JSON-LD value. -/
inductive JVal where
  | str (s : String) : JVal
  | num (n : Int) : JVal
  | bool (b : Bool) : JVal
  | arr (xs : List JVal) : JVal
  | obj (fields : List (String × JVal)) : JVal

/-- Python `sep.join(parts)`. -/
def joinSep (sep : String) : List String → String
  | [] => ""
  | [x] => x
  | x :: xs => x ++ sep ++ joinSep sep xs

/-- A parsed JSON-LD object (the `json_ld` dict). -/
abbrev JObj := List (String × JVal)

/-- Python `dict.get(key)`. -/
def pyGet (d : JObj) (key : String) : Option JVal :=
  (d.find? fun p => p.1 == key).map (·.2)

/-- Python truthiness of a JSON value. -/
def jTruthy : JVal → Bool
  | .str s => !(s == "")
  | .num n => !(n == 0)
  | .bool b => b
  | .arr xs => !xs.isEmpty
  | .obj fs => !fs.isEmpty

/-- Digit characters of a natural number, most significant first. -/
def natDigits (n : Nat) : List Char := Nat.toDigits 10 n

/-- Insert thousands separators, given the digits reversed (least
significant first). -/
def group3 : List Char → List Char
  | [] => []
  | a :: [] => [a]
  | a :: b :: [] => [a, b]
  | a :: b :: c :: [] => [a, b, c]
  | a :: b :: c :: rest => a :: b :: c :: ',' :: group3 rest

/-- Python `f"{n:,}"` for an integer: thousands separators every three
digits, `-` sign for negatives. -/
def commaFmt (n : Int) : String :=
  let ds := (group3 (natDigits n.natAbs).reverse).reverse
  if n < 0 then String.mk ('-' :: ds) else String.mk ds

/-- `f"${min_val:,} - ${max_val:,} per {unit.lower()}"`. -/
def formatSalary (a b : Int) (u : String) : String :=
  "$" ++ commaFmt a ++ " - $" ++ commaFmt b ++ " per " ++ lowerS u

example : commaFmt 1234567 = "1,234,567" := by decide
example : commaFmt 0 = "0" := by decide
example : commaFmt (-1234) = "-1,234" := by decide
example : formatSalary 100000 150000 "YEAR" = "$100,000 - $150,000 per year" := by decide

/-- Lines 267–279: the metadata salary.  `baseSalary` must be an object
with an object-valued `value`; bounds default to `0`, the unit to
`"YEAR"`; the salary is set only when a bound is truthy.  A non-integer
bound or non-string unit raises inside the source's `try` block and
leaves the field unset, which this model returns as `none`. -/
def salaryFromMeta (jsonLd : JObj) : Option String :=
  match pyGet jsonLd "baseSalary" with
  | some (.obj sal) =>
    match pyGet sal "value" with
    | some (.obj val) =>
      let minV := (pyGet val "minValue").getD (.num 0)
      let maxV := (pyGet val "maxValue").getD (.num 0)
      let unit := (pyGet val "unitText").getD (.str "YEAR")
      if jTruthy minV || jTruthy maxV then
        match minV, maxV, unit with
        | .num a, .num b, .str u => some (formatSalary a b u)
        | _, _, _ => none
      else none
    | _ => none
  | _ => none

/-- Lines 236–243: `hiringOrganization` — an object's `name`, or a bare
string. -/
def companyFromMeta (jsonLd : JObj) : Option JVal :=
  match pyGet jsonLd "hiringOrganization" with
  | some (.obj org) => pyGet org "name"
  | some (.str s) => some (.str s)
  | _ => none

/-- Lines 245–265: `jobLocation` — take the first element of a non-empty
list, then the `address` of an object: a string address is taken
directly; an object address contributes its locality/region/country
parts (strings, or objects' `name` values) joined by `", "`.  A
non-string part makes the source's `", ".join` raise inside `try`,
leaving the field unset (`none` here); an empty parts list yields
`None` via the `if parts else None` conditional. -/
def locationFromMeta (jsonLd : JObj) : Option String :=
  match pyGet jsonLd "jobLocation" with
  | some loc0 =>
    let loc := match loc0 with
      | .arr (x :: _) => x
      | _ => loc0
    match loc with
    | .obj l =>
      match pyGet l "address" with
      | some (.obj addr) =>
        let parts := ["addressLocality", "addressRegion", "addressCountry"].foldl
          (fun ps key =>
            match pyGet addr key with
            | some (.str v) => ps ++ [JVal.str v]
            | some (.obj o) =>
              match pyGet o "name" with
              | some v => ps ++ [v]
              | none => ps
            | _ => ps) []
        match parts with
        | [] => none
        | _ =>
          if parts.all fun p => match p with | .str _ => true | _ => false then
            some (joinSep ", " (parts.map fun p => match p with
              | .str s => s
              | _ => ""))
          else none
      | some (.str a) => some a
      | _ => none
    | _ => none
  | none => none

/-- `[\d,]` -/
def digitComma (c : Char) : Bool := pyDigit c || c == ','

/-- `[-–]` -/
def dashCls (c : Char) : Bool := c == '-' || c == '–'

/-- `[:\s]` -/
def colonSpace (c : Char) : Bool := c == ':' || pySpace c

/-- `X+` for a class `X`. -/
def plusC (f : Char → Bool) : RE := RE.seq (RE.cls f) (RE.star f)

/-- Salary pattern 1:
`\$\s*([\d,]+)\s*(?:[-–]\s*\$?\s*([\d,]+))?\s*(?:per\s+|/\s*)?(year|yr|annually|hour|hr|hourly|month|monthly)`. -/
def salPat1 : RE :=
  seqL [lit1 '$', wsS, RE.grp 1 (plusC digitComma), wsS,
    RE.opt (seqL [RE.cls dashCls, wsS, RE.opt (lit1 '$'), wsS, RE.grp 2 (plusC digitComma)]),
    wsS, RE.opt (RE.alt (RE.seq (litS "per") wsP) (RE.seq (lit1 '/') wsS)),
    RE.grp 3 (altL [litS "year", litS "yr", litS "annually", litS "hour", litS "hr",
      litS "hourly", litS "month", litS "monthly"])]

/-- Salary pattern 2:
`(?:salary|compensation|pay)[:\s]*\$\s*([\d,]+)\s*(?:[-–]\s*\$?\s*([\d,]+))?`. -/
def salPat2 : RE :=
  seqL [altL [litS "salary", litS "compensation", litS "pay"], RE.star colonSpace,
    lit1 '$', wsS, RE.grp 1 (plusC digitComma), wsS,
    RE.opt (seqL [RE.cls dashCls, wsS, RE.opt (lit1 '$'), wsS, RE.grp 2 (plusC digitComma)])]

/-- `salary_patterns`, in order. -/
def salary_patterns : List RE := [salPat1, salPat2]

/-- Truthiness of `match.group(n)` (`None` or empty capture is falsy). -/
def truthyCap : Option (List Char) → Bool
  | some (_ :: _) => true
  | _ => false

/-- The loop body of lines 305–312: `"$g1[ - $g2][ per g3]"`, guarded by
`match.lastindex` and group truthiness exactly as in the source. -/
def buildSalaryBase (caps : List (Nat × List Char)) : String :=
  if decide (2 ≤ lastIdx caps) && truthyCap (capLookup caps 2) then
    "$" ++ String.mk ((capLookup caps 1).getD [])
      ++ " - $" ++ String.mk ((capLookup caps 2).getD [])
  else "$" ++ String.mk ((capLookup caps 1).getD [])

def buildSalary (caps : List (Nat × List Char)) : String :=
  if decide (3 ≤ lastIdx caps) && truthyCap (capLookup caps 3) then
    buildSalaryBase caps ++ " per " ++ String.mk ((capLookup caps 3).getD [])
  else buildSalaryBase caps

/-- Lines 298–312: the first salary pattern with a match wins. -/
def salaryFromText (text : String) : Option String :=
  salary_patterns.findSome? fun p => (searchRe p text).map buildSalary

/-- The hybrid-days pattern
`(\d+)\s*days?\s*(?:per\s*week|/\s*week)?\s*(?:in\s*)?(?:office|on-?site)`. -/
def hybridPat : RE :=
  seqL [RE.grp 1 (plusC pyDigit), wsS, litS "day", RE.opt (lit1 's'), wsS,
    RE.opt (RE.alt (seqL [litS "per", wsS, litS "week"])
      (seqL [lit1 '/', wsS, litS "week"])),
    wsS, RE.opt (RE.seq (litS "in") wsS),
    RE.alt (litS "office") (seqL [litS "on", RE.opt (lit1 '-'), litS "site"])]

/-- Lines 285–295: the work-arrangement keyword cascade. -/
def workArrFromText (text : String) : Option String :=
  let tl := lowerL text.toList
  if occursIn "remote".toList tl && !occursIn "hybrid".toList tl then some "Remote"
  else if occursIn "hybrid".toList tl then
    match searchRe hybridPat text with
    | some caps =>
      some ("Hybrid (" ++ String.mk ((capLookup caps 1).getD []) ++ " days/week in office)")
    | none => some "Hybrid"
  else if occursIn "on-site".toList tl || occursIn "onsite".toList tl
      || occursIn "in-office".toList tl then
    some "On-site"
  else none

/-- The `info` record of `extract_basic_info` (`title`, `company` and
`employment_type` are passed through from the metadata unvalidated, so
they can hold any JSON value; `location`, `salary` and
`work_arrangement` are only ever set to strings). -/
structure BasicInfo where
  title : Option JVal
  company : Option JVal
  location : Option String
  employment_type : Option JVal
  salary : Option String
  work_arrangement : Option String

/-- `if not info["salary"]` — `None` or the empty string is falsy. -/
def pyFalsyOptStr : Option String → Bool
  | none => true
  | some s => s == ""

/-- `extract_basic_info` from `scraper.py`: metadata fields first (under
the `if json_ld:` truthiness guard), then text-only work arrangement,
then the text salary only when the metadata produced none. -/
def extract_basic_info (text : String) (jsonLd : JObj) : BasicInfo :=
  let metaActive := !jsonLd.isEmpty
  let title := if metaActive then pyGet jsonLd "title" else none
  let employment_type := if metaActive then pyGet jsonLd "employmentType" else none
  let company := if metaActive then companyFromMeta jsonLd else none
  let location := if metaActive then locationFromMeta jsonLd else none
  let metaSalary := if metaActive then salaryFromMeta jsonLd else none
  let work_arrangement := workArrFromText text
  let salary := if pyFalsyOptStr metaSalary then salaryFromText text else metaSalary
  ⟨title, company, location, employment_type, salary, work_arrangement⟩

example : (extract_basic_info "Pay: $90,000 - $120,000 per year, remote" []).salary
    = some "$90,000 - $120,000 per year" := by decide
example : (extract_basic_info "Pay: $90,000 - $120,000 per year, remote" []).work_arrangement
    = some "Remote" := by decide
example : (extract_basic_info "hybrid, 3 days per week in office" []).work_arrangement
    = some "Hybrid (3 days/week in office)" := by decide
example : (extract_basic_info "salary: $55 for this onsite role" []).salary
    = some "$55" := by decide

/-!
## The Aggregator: `scrape_job_posting` (`scraper.py`, lines 319–377)

The structure's fields are, in order, exactly the keys of the `job_data`
dictionary: `url, title, company, location, employment_type, salary,
work_arrangement, responsibilities, requirements,
preferred_qualifications, benefits, about_company, skills_mentioned,
raw_text`.  The fetch is I/O; its outcome is an explicit parameter
(`none` = the fetch raised, the source's outer `except` branch).  The
inner per-stage `try`/`except`s guard calls to total pure functions,
whose Lean models cannot raise — totality of this definition is the
"never raises" contract.
-/

structure JobPosting where
  url : String
  title : Option JVal
  company : Option JVal
  location : Option String
  employment_type : Option JVal
  salary : Option String
  work_arrangement : Option String
  responsibilities : List String
  requirements : List String
  preferred_qualifications : List String
  benefits : List String
  about_company : List String
  skills_mentioned : List String
  raw_text : String

/-- `scrape_job_posting`: the default record, overwritten stage by stage
when the fetch succeeded (`raw_text = text or ""`). -/
def scrape_job_posting (url : String) (fetched : Option (String × JObj)) : JobPosting :=
  match fetched with
  | none =>
    ⟨url, none, none, none, none, none, none, [], [], [], [], [], [], ""⟩
  | some (text, jsonLd) =>
    let raw := if text == "" then "" else text
    let bi := extract_basic_info text jsonLd
    let secs := parse_job_text text
    ⟨url, bi.title, bi.company, bi.location, bi.employment_type, bi.salary,
     bi.work_arrangement, secs.responsibilities, secs.requirements, secs.preferred,
     secs.benefits, secs.about_company, extract_skills text, raw⟩

/-!
## The prompt formatter: `format_job_for_prompt` (`main.py`, lines 491–543)
-/

/-- `str(n)` for an integer. -/
def intStr (n : Int) : String :=
  if n < 0 then "-" ++ String.mk (natDigits n.natAbs) else String.mk (natDigits n.natAbs)

/-- Python `f"{v}"` for a JSON value.  For composite values CPython
prints a `repr`; no claim evaluates the formatter on a composite value,
so their rendering is abbreviated here. -/
def pyStr : JVal → String
  | .str s => s
  | .num n => intStr n
  | .bool b => if b then "True" else "False"
  | .arr _ => "[...]"
  | .obj _ => "(object)"

/-- Truthiness of an optional JSON value. -/
def jOptTruthy : Option JVal → Bool
  | none => false
  | some v => jTruthy v

/-- Truthiness of an optional string. -/
def sOptTruthy : Option String → Bool
  | none => false
  | some s => !(s == "")

/-- `s[:n]`. -/
def takePre (n : Nat) (s : String) : String := String.mk (s.toList.take n)

/-- `format_job_for_prompt` from `main.py`: conditional header lines,
bulleted sections, then — when none of responsibilities, requirements
and about-company has content — the raw-text fallback block with
`raw_text[:8000]`. -/
def format_job_for_prompt (jd : JobPosting) : String :=
  let parts : List String :=
    (if jOptTruthy jd.title then ["Job Title: " ++ pyStr (jd.title.getD (.str ""))] else [])
    ++ (if jOptTruthy jd.company then
          ["Company: " ++ pyStr (jd.company.getD (.str ""))] else [])
    ++ (if sOptTruthy jd.location then ["Location: " ++ jd.location.getD ""] else [])
    ++ (if sOptTruthy jd.work_arrangement then
          ["Work Arrangement: " ++ jd.work_arrangement.getD ""] else [])
    ++ (if !jd.about_company.isEmpty then
          ["\nAbout the Company:\n" ++ joinSep "\n" (jd.about_company.take 3)] else [])
    ++ (if !jd.responsibilities.isEmpty then
          "\nResponsibilities:" :: jd.responsibilities.map (fun i => "• " ++ i) else [])
    ++ (if !jd.requirements.isEmpty then
          "\nRequirements:" :: jd.requirements.map (fun i => "• " ++ i) else [])
    ++ (if !jd.preferred_qualifications.isEmpty then
          "\nPreferred Qualifications:"
            :: jd.preferred_qualifications.map (fun i => "• " ++ i) else [])
    ++ (if !jd.skills_mentioned.isEmpty then
          ["\nSkills Mentioned: " ++ joinSep ", " jd.skills_mentioned] else [])
  let has_content := !jd.responsibilities.isEmpty || !jd.requirements.isEmpty
    || !jd.about_company.isEmpty
  let parts := parts ++
    (if !has_content && !(jd.raw_text == "") then
      ["\nFull Job Posting Text:\n" ++ takePre 8000 jd.raw_text] else [])
  joinSep "\n" parts

example :
    format_job_for_prompt (scrape_job_posting "u" (some ("plain page text", [])))
      = "\nFull Job Posting Text:\nplain page text" := by decide

/-!
## Claim theorems
-/

/-- **C2.** `scrape_job_posting` is a total function returning a record
whose fields are exactly `url, title, company, location,
employment_type, salary, work_arrangement, responsibilities,
requirements, preferred_qualifications, benefits, about_company,
skills_mentioned, raw_text` (the fields of `JobPosting`); when the page
fetch itself fails (modelled by the `none` outcome), every scalar field
is absent, every sequence field is empty, and `raw_text` is `""`. -/
theorem c2_scrape_fetch_failure_defaults (url : String) :
    scrape_job_posting url none =
      { url := url, title := none, company := none, location := none,
        employment_type := none, salary := none, work_arrangement := none,
        responsibilities := [], requirements := [], preferred_qualifications := [],
        benefits := [], about_company := [], skills_mentioned := [], raw_text := "" } :=
  rfl

/-- **C1, counterexample.**  The normalized candidate line
`"A.B, ok: yes"` (12 characters) contains `.`, `,` and `:`, matches no
denylist phrase, and is shorter than 25 characters, yet the Section
Segmenter rejects it: `keepLine` is false on it (the `len(line) > 15`
guard precedes the punctuation test), and on the concrete posting
`"Requirements\nA.B, ok: yes\n"` — where it is the only candidate of
the requirements span — `parse_job_text` returns no requirements.  So a
sub-25-character candidate can be rejected even though it contains one
of `.`, `,`, `:`. -/
theorem c1_short_punct_rejected :
    clean_text "A.B, ok: yes" = "A.B, ok: yes" ∧
    hasPunctChars "A.B, ok: yes".toList = true ∧
    (junkList.any fun j => occursIn j.toList (lowerL "A.B, ok: yes".toList)) = false ∧
    "A.B, ok: yes".toList.length < 25 ∧
    keepLine "A.B, ok: yes" = false ∧
    spanList "Requirements\nA.B, ok: yes\n".toList
      = [(SecType.requirements, "A.B, ok: yes\n".toList)] ∧
    parse_job_text "Requirements\nA.B, ok: yes\n"
      = { responsibilities := [], requirements := [], preferred := [],
          benefits := [], about_company := [] } := by
  refine ⟨by decide, by decide, by decide, by decide, by decide, by decide, by decide⟩

/-- **C1, amended.**  A normalized candidate line shorter than 25
characters is rejected only when it contains none of `.`, `,`, `:` *or*
its normalized length is at most 15 (or it matches the denylist):
every normalized candidate longer than 15 characters that contains at
least one of `.`, `,`, `:` and matches no denylist phrase passes the
Section Segmenter's filter, regardless of being shorter than 25
characters. -/
theorem c1_keep_punct_line_amended (line : String)
    (h15 : 15 < (clean_text line).toList.length)
    (hp : hasPunctChars (clean_text line).toList = true)
    (hj : (junkList.any fun j => occursIn j.toList (lowerL (clean_text line).toList))
      = false) :
    keepLine (clean_text line) = true := by
  unfold keepLine
  have hne : (clean_text line).toList.isEmpty = false := by
    cases h : (clean_text line).toList with
    | nil => rw [h] at h15; simp at h15
    | cons a t => simp [List.isEmpty]
  simp only [hne, hj, hp, Bool.not_false, Bool.and_false, Bool.not_true, Bool.false_and,
    Bool.and_true, Bool.true_and, Bool.not_false, decide_eq_true_eq]
  exact h15

/-- Witness for C1's amended theorem at the concrete candidate
`"Good pay, hours."` (16 characters, contains `,` and `.`). -/
theorem c1_keep_punct_line_amended_witness :
    15 < (clean_text "Good pay, hours.").toList.length ∧
    hasPunctChars (clean_text "Good pay, hours.").toList = true ∧
    keepLine (clean_text "Good pay, hours.") = true :=
  ⟨by decide, by decide,
   c1_keep_punct_line_amended "Good pay, hours." (by decide) (by decide) (by decide)⟩

/-- **C9.**  With no structured metadata and a text whose lowercased
form contains none of `"remote"`, `"hybrid"`, `"on-site"`, `"onsite"`,
`"in-office"`, the extracted work arrangement is absent — never a
default string. -/
theorem c9_work_arrangement_absent (text : String)
    (h1 : occursIn "remote".toList (lowerL text.toList) = false)
    (h2 : occursIn "hybrid".toList (lowerL text.toList) = false)
    (h3 : occursIn "on-site".toList (lowerL text.toList) = false)
    (h4 : occursIn "onsite".toList (lowerL text.toList) = false)
    (h5 : occursIn "in-office".toList (lowerL text.toList) = false) :
    (extract_basic_info text []).work_arrangement = none := by
  unfold extract_basic_info workArrFromText
  simp at h1 h2 h3 h4 h5
  simp [h1, h2, h3, h4, h5]

/-- Witness for C9 at the concrete text `"We build compilers."`. -/
theorem c9_work_arrangement_absent_witness :
    (extract_basic_info "We build compilers." []).work_arrangement = none :=
  c9_work_arrangement_absent "We build compilers."
    (by decide) (by decide) (by decide) (by decide) (by decide)

/-- A formatted metadata salary is never the empty string (it starts
with `$`), so the `if not info["salary"]` check cannot discard it. -/
theorem formatSalary_ne_empty (a b : Int) (u : String) : (formatSalary a b u == "") = false := by
  have h : 0 < (formatSalary a b u).length := by
    unfold formatSalary
    have h1 : ("$" : String).length = 1 := rfl
    simp only [String.length_append]
    omega
  cases hq : formatSalary a b u == "" with
  | false => rfl
  | true =>
    have := eq_of_beq hq
    rw [this] at h
    simp at h

/-- `pyGet` only succeeds on a non-empty dict, so `if json_ld:` passes. -/
theorem pyGet_ne_nil {d : JObj} {k : String} {v : JVal} (h : pyGet d k = some v) :
    d.isEmpty = false := by
  cases d with
  | nil => simp [pyGet] at h
  | cons p t => rfl

/-- **C5.**  Whenever the structured metadata holds a valid
`baseSalary.value` object — integer `minValue`/`maxValue` bounds (with
the source's default `0`), at least one bound non-zero, and a string
`unitText` (default `"YEAR"`) — the extracted salary is exactly the
metadata-derived `"$min - $max per unit"` string (unit lowercased),
regardless of the text: the text-derived salary patterns are not
consulted. -/
theorem c5_metadata_salary_precedence (text : String) (jsonLd sal val : JObj)
    (a b : Int) (u : String)
    (hb : pyGet jsonLd "baseSalary" = some (.obj sal))
    (hv : pyGet sal "value" = some (.obj val))
    (hmin : (pyGet val "minValue").getD (.num 0) = .num a)
    (hmax : (pyGet val "maxValue").getD (.num 0) = .num b)
    (hunit : (pyGet val "unitText").getD (.str "YEAR") = .str u)
    (hnz : a ≠ 0 ∨ b ≠ 0) :
    (extract_basic_info text jsonLd).salary = some (formatSalary a b u) := by
  have ht : (jTruthy (.num a) || jTruthy (.num b)) = true := by
    rcases hnz with h | h
    · have ha : jTruthy (.num a) = true := by simp [jTruthy, h]
      simp [ha]
    · have hb' : jTruthy (.num b) = true := by simp [jTruthy, h]
      simp [hb']
  have hmeta : salaryFromMeta jsonLd = some (formatSalary a b u) := by
    unfold salaryFromMeta
    simp only [hb, hv, hmin, hmax, hunit, ht]
    simp
  unfold extract_basic_info
  simp only [pyGet_ne_nil hb, Bool.not_false, if_true, hmeta]
  simp [pyFalsyOptStr, formatSalary_ne_empty]

/-- Witness for C5 at a concrete metadata object and a text that itself
advertises a (different) salary. -/
theorem c5_metadata_salary_precedence_witness :
    (extract_basic_info "salary: $1 - $2 per hour"
        [("baseSalary", .obj [("value", .obj
          [("minValue", .num 100000), ("maxValue", .num 150000),
           ("unitText", .str "YEAR")])])]).salary
      = some (formatSalary 100000 150000 "YEAR") :=
  c5_metadata_salary_precedence "salary: $1 - $2 per hour" _ _ _ 100000 150000 "YEAR"
    rfl rfl rfl rfl rfl (Or.inl (by decide))

/-- The concrete posting of the spec's testable property 5. -/
def c4text : String :=
  "What you'll do\nBuild scalable backend services for our platform.\nCollaborate with cross-functional teams on system design.\n\nRequirements\n5+ years of experience with distributed systems.\nStrong knowledge of Python and Go."

set_option maxRecDepth 100000 in
/-- **C4.**  On the concrete posting, the Section Segmenter returns
exactly the two responsibilities lines and the two requirements lines
(the other three categories empty), and the Skill Extractor's output
contains `"Python"` and `"Go"` with the source text's casing. -/
theorem c4_concrete_segmentation :
    parse_job_text c4text =
      { responsibilities := ["Build scalable backend services for our platform.",
          "Collaborate with cross-functional teams on system design."],
        requirements := ["5+ years of experience with distributed systems.",
          "Strong knowledge of Python and Go."],
        preferred := [], benefits := [], about_company := [] } ∧
    "Python" ∈ extract_skills c4text ∧ "Go" ∈ extract_skills c4text := by
  refine ⟨by decide, ?_, ?_⟩
  · have h : extract_skills c4text
        = ["distributed systems", "Go", "Python", "system design"] := by decide
    rw [h]; decide
  · have h : extract_skills c4text
        = ["distributed systems", "Go", "Python", "system design"] := by decide
    rw [h]; decide

instance : IsTotal SectionPos posLe := ⟨fun a b => Nat.le_total a.start b.start⟩

instance : IsTrans SectionPos posLe := ⟨fun _ _ _ h1 h2 => Nat.le_trans h1 h2⟩

/-- The span-slicing loop, characterised by list index: entry `i` of
`spanGo` covers `[start_i, header_start_{i+1})`, or up to the end of the
text for the last entry. -/
theorem spanGo_characterization (chars : List Char) :
    ∀ (l : List SectionPos) (i : Nat) (p : SectionPos), l.get? i = some p →
    (spanGo chars l).get? i = some
      (p.type, (chars.drop p.start).take
        ((match l.get? (i + 1) with
          | some q => q.header_start
          | none => chars.length) - p.start)) := by
  intro l
  induction l with
  | nil => intro i p h; simp at h
  | cons x xs ih =>
    intro i p h
    cases xs with
    | nil =>
      cases i with
      | zero =>
        simp only [List.get?_cons_zero, Option.some.injEq] at h
        subst h
        simp [spanGo]
      | succ n => simp at h
    | cons y ys =>
      cases i with
      | zero =>
        simp only [List.get?_cons_zero, Option.some.injEq] at h
        subst h
        simp [spanGo]
      | succ n =>
        simp only [List.get?_cons_succ] at h ⊢
        simpa [spanGo] using ih n p h

/-- **C6.**  After all heading matches are sorted by content start
ascending (a stable sort), the content span attributed to match `i`
runs from match `i`'s content start to match `i+1`'s header start —
half-open — and to the end of the text for the last match; a later
heading of any category terminates the previous heading's span. -/
theorem c6_span_attribution (text : String) (i : Nat) (p : SectionPos)
    (hp : (sortedPositions text.toList).get? i = some p) :
    List.Sorted posLe (sortedPositions text.toList) ∧
    (spanList text.toList).get? i = some
      (p.type, (text.toList.drop p.start).take
        ((match (sortedPositions text.toList).get? (i + 1) with
          | some q => q.header_start
          | none => text.toList.length) - p.start)) :=
  ⟨List.sorted_insertionSort posLe _,
   spanGo_characterization text.toList (sortedPositions text.toList) i p hp⟩

/-- A concrete two-heading posting for the C6 witness. -/
def c6text : String :=
  "Benefits\nGreat pay, great balance.\nRequirements\nMany difficult things, sadly."

/-- Witness for C6 at the benefits heading (index 0) of `c6text`, whose
span is terminated by the later requirements heading. -/
theorem c6_span_attribution_witness :
    List.Sorted posLe (sortedPositions c6text.toList) ∧
    (spanList c6text.toList).get? 0 = some
      (SecType.benefits, (c6text.toList.drop 9).take
        ((match (sortedPositions c6text.toList).get? (0 + 1) with
          | some q => q.header_start
          | none => c6text.toList.length) - 9)) :=
  c6_span_attribution c6text 0 ⟨SecType.benefits, 9, 0, "Benefits"⟩ (by decide)

theorem leadsWith_self_append (n t : List Char) : leadsWith n (n ++ t) = true := by
  induction n with
  | nil => rfl
  | cons c m ih => simp [leadsWith, ih]

theorem leadsWith_iff (n : List Char) : ∀ h, leadsWith n h = true ↔ ∃ t, h = n ++ t := by
  induction n with
  | nil => intro h; simp [leadsWith]
  | cons c m ih =>
    intro h
    cases h with
    | nil => simp [leadsWith]
    | cons d t =>
      simp only [leadsWith, Bool.and_eq_true, beq_iff_eq, ih, List.cons_append,
        List.cons.injEq]
      constructor
      · rintro ⟨rfl, u, rfl⟩; exact ⟨u, rfl, rfl⟩
      · rintro ⟨u, rfl, rfl⟩; exact ⟨rfl, u, rfl⟩

theorem occursIn_of_head {n h : List Char} (hl : leadsWith n h = true) :
    occursIn n h = true := by
  cases h with
  | nil => exact hl
  | cons c t => simp [occursIn, hl]

theorem occursIn_append_left (h : List Char) {n t : List Char}
    (ht : occursIn n t = true) : occursIn n (h ++ t) = true := by
  induction h with
  | nil => exact ht
  | cons c m ih => simp [occursIn, ih]

theorem occursIn_iff (n : List Char) : ∀ h, occursIn n h = true ↔ ∃ u v, h = u ++ (n ++ v) := by
  intro h
  induction h with
  | nil =>
    cases n with
    | nil => simp [occursIn, leadsWith]
    | cons c m =>
      simp only [occursIn, leadsWith, Bool.false_eq_true, false_iff, not_exists]
      intro u v he
      exact absurd he.symm (by simp)
  | cons c t ih =>
    simp only [occursIn, Bool.or_eq_true, leadsWith_iff, ih]
    constructor
    · rintro (⟨u, he⟩ | ⟨u, v, he⟩)
      · exact ⟨[], u, by simpa using he⟩
      · exact ⟨c :: u, v, by simp [he]⟩
    · rintro ⟨u, v, he⟩
      cases u with
      | nil => exact Or.inl ⟨v, by simpa using he⟩
      | cons x u' =>
        simp only [List.cons_append, List.cons.injEq] at he
        exact Or.inr ⟨u', v, he.2⟩

theorem occursIn_trans {a b c : List Char} (h1 : occursIn a b = true)
    (h2 : occursIn b c = true) : occursIn a c = true := by
  rw [occursIn_iff] at h1 h2 ⊢
  obtain ⟨u, v, rfl⟩ := h1
  obtain ⟨x, y, rfl⟩ := h2
  exact ⟨x ++ u, v ++ y, by simp⟩

theorem occursIn_nil_left (h : List Char) : occursIn [] h = true := by
  cases h with
  | nil => rfl
  | cons c t => simp [occursIn, leadsWith]

/-- Every element of a joined list occurs in the join. -/
theorem occursIn_joinSep {p sep : String} : ∀ {parts : List String}, p ∈ parts →
    occursIn p.toList (joinSep sep parts).toList = true := by
  intro parts
  induction parts with
  | nil => intro hp; simp at hp
  | cons x xs ih =>
    intro hp
    cases xs with
    | nil =>
      rcases List.mem_singleton.mp hp with rfl
      exact occursIn_of_head (by simpa using leadsWith_self_append p.toList [])
    | cons y ys =>
      rcases List.mem_cons.mp hp with rfl | hmem
      · show occursIn p.toList (p ++ sep ++ joinSep sep (y :: ys)).toList = true
        have : (p ++ sep ++ joinSep sep (y :: ys)).toList
            = p.toList ++ (sep.toList ++ (joinSep sep (y :: ys)).toList) := by
          simp [String.toList, String.data_append]
        rw [this]
        exact occursIn_of_head (leadsWith_self_append _ _)
      · show occursIn p.toList (x ++ sep ++ joinSep sep (y :: ys)).toList = true
        have : (x ++ sep ++ joinSep sep (y :: ys)).toList
            = (x.toList ++ sep.toList) ++ (joinSep sep (y :: ys)).toList := by
          simp [String.toList, String.data_append]
        rw [this]
        exact occursIn_append_left _ (ih hmem)

/-- **C8.**  (i) Whenever the fetched page text is non-empty, the
aggregated record's `raw_text` is that text (hence non-empty); (ii)
whenever all five section sequences of a record are empty, the prompt
formatter's output contains the 8000-character prefix of `raw_text` —
the record is never surfaced without substantive content if any text
was fetched. -/
theorem c8_raw_text_surfaced :
    (∀ (url text : String) (jsonLd : JObj), text ≠ "" →
      (scrape_job_posting url (some (text, jsonLd))).raw_text = text) ∧
    (∀ jd : JobPosting, jd.responsibilities = [] → jd.requirements = [] →
      jd.preferred_qualifications = [] → jd.benefits = [] → jd.about_company = [] →
      occursInS (takePre 8000 jd.raw_text) (format_job_for_prompt jd) = true) := by
  constructor
  · intro url text jsonLd htext
    unfold scrape_job_posting
    have hne : (text == "") = false := beq_eq_false_iff_ne.mpr htext
    simp [hne]
  · intro jd h1 h2 h3 h4 h5
    by_cases hraw : jd.raw_text = ""
    · have hempty : takePre 8000 jd.raw_text = "" := by rw [hraw]; rfl
      rw [hempty]
      exact occursIn_nil_left _
    · have hne : (jd.raw_text == "") = false := beq_eq_false_iff_ne.mpr hraw
      unfold format_job_for_prompt occursInS
      simp only [h1, h2, h3, h4, h5, hne, List.isEmpty_nil, Bool.not_true, Bool.not_false,
        Bool.false_or, Bool.or_self, Bool.and_true, Bool.true_and, if_false, if_true,
        List.map_nil, Bool.false_and, Bool.and_false]
      have htail :
          occursIn (takePre 8000 jd.raw_text).toList
            ("\nFull Job Posting Text:\n" ++ takePre 8000 jd.raw_text).toList = true := by
        have hsplit : ("\nFull Job Posting Text:\n" ++ takePre 8000 jd.raw_text).toList
            = "\nFull Job Posting Text:\n".toList ++ ((takePre 8000 jd.raw_text).toList ++ []) := by
          simp [String.toList, String.data_append]
        rw [hsplit]
        exact occursIn_append_left _ (occursIn_of_head (leadsWith_self_append _ _))
      exact occursIn_trans htail
        (occursIn_joinSep (List.mem_append_right _ (List.mem_singleton.mpr rfl)))

/-- Witness for C8: a non-empty fetched text survives as `raw_text`,
and a record with five empty sections surfaces its raw text through the
formatter. -/
theorem c8_raw_text_surfaced_witness :
    (scrape_job_posting "u" (some ("page body", []))).raw_text = "page body" ∧
    occursInS
      (takePre 8000 (JobPosting.mk "u" none none none none none none [] [] [] [] [] [] "page body").raw_text)
      (format_job_for_prompt
        (JobPosting.mk "u" none none none none none none [] [] [] [] [] [] "page body")) = true :=
  ⟨c8_raw_text_surfaced.1 "u" "page body" [] (by decide),
   c8_raw_text_surfaced.2 _ rfl rfl rfl rfl rfl⟩

/-- No two consecutive whitespace characters. -/
def noDoubleWs : List Char → Bool
  | [] => true
  | [_] => true
  | a :: b :: r => !(pySpace a && pySpace b) && noDoubleWs (b :: r)

theorem noDoubleWs_tail {a : Char} {l : List Char} (h : noDoubleWs (a :: l) = true) :
    noDoubleWs l = true := by
  cases l with
  | nil => rfl
  | cons b r =>
    simp only [noDoubleWs, Bool.and_eq_true] at h
    exact h.2

theorem noDoubleWs_cons_of_nonspace {a : Char} {l : List Char} (ha : pySpace a = false)
    (h : noDoubleWs l = true) : noDoubleWs (a :: l) = true := by
  cases l with
  | nil => rfl
  | cons b r => simp [noDoubleWs, ha, h]

/-- Every whitespace character surviving `collapseWs` is the space that
replaced its run. -/
theorem collapseWs_space_mem : ∀ l, ∀ c ∈ collapseWs l, pySpace c = true → c = ' ' := by
  intro l
  induction l using collapseWs.induct with
  | case1 => intro c hc; simp [collapseWs] at hc
  | case2 d hd =>
    intro c hc _
    simp [collapseWs, hd] at hc
    exact hc
  | case3 d hd =>
    intro c hc hsp
    simp [collapseWs, hd] at hc
    subst hc
    rw [hsp] at hd
    exact absurd rfl hd
  | case4 a b rest ha hb ih =>
    intro c hc hsp
    simp only [collapseWs, ha, hb, if_true] at hc
    exact ih c hc hsp
  | case5 a b rest ha hb ih =>
    intro c hc hsp
    rw [show collapseWs (a :: b :: rest) = ' ' :: collapseWs (b :: rest) by
      simp [collapseWs, ha, hb]] at hc
    rcases List.mem_cons.mp hc with rfl | hc
    · rfl
    · exact ih c hc hsp
  | case6 a b rest ha ih =>
    intro c hc hsp
    rw [show collapseWs (a :: b :: rest) = a :: collapseWs (b :: rest) by
      simp [collapseWs, ha]] at hc
    rcases List.mem_cons.mp hc with rfl | hc
    · rw [hsp] at ha; exact absurd rfl ha
    · exact ih c hc hsp

/-- `collapseWs` starts a run-free block with its first non-space
character. -/
theorem collapseWs_head_nonspace {b : Char} (hb : pySpace b = false) (r : List Char) :
    (collapseWs (b :: r)).head? = some b := by
  cases r with
  | nil => simp [collapseWs, hb]
  | cons c rest => simp [collapseWs, hb]

/-- `collapseWs` never produces two adjacent whitespace characters. -/
theorem collapseWs_noDouble : ∀ l, noDoubleWs (collapseWs l) = true := by
  intro l
  induction l using collapseWs.induct with
  | case1 => rfl
  | case2 d hd => simp [collapseWs, hd, noDoubleWs]
  | case3 d hd => simp [collapseWs, hd, noDoubleWs]
  | case4 a b rest ha hb ih =>
    rw [show collapseWs (a :: b :: rest) = collapseWs (b :: rest) by
      simp [collapseWs, ha, hb]]
    exact ih
  | case5 a b rest ha hb ih =>
    rw [show collapseWs (a :: b :: rest) = ' ' :: collapseWs (b :: rest) by
      simp [collapseWs, ha, hb]]
    have hb' : pySpace b = false := by
      cases hx : pySpace b with
      | false => rfl
      | true => exact absurd hx hb
    have hh := collapseWs_head_nonspace hb' rest
    cases hcb : collapseWs (b :: rest) with
    | nil => rfl
    | cons x xs =>
      rw [hcb] at hh ih
      have hx : x = b := by simpa using hh
      subst hx
      simp [noDoubleWs, hb', ih]
  | case6 a b rest ha ih =>
    rw [show collapseWs (a :: b :: rest) = a :: collapseWs (b :: rest) by
      simp [collapseWs, ha]]
    have ha' : pySpace a = false := by
      cases hx : pySpace a with
      | false => rfl
      | true => exact absurd hx ha
    exact noDoubleWs_cons_of_nonspace ha' ih

/-- Members of `stripRight l` are members of `l`. -/
theorem mem_stripRight : ∀ {l : List Char} {c : Char}, c ∈ stripRight l → c ∈ l := by
  intro l
  induction l with
  | nil => intro c hc; simp [stripRight] at hc
  | cons a rest ih =>
    intro c hc
    unfold stripRight at hc
    cases hsr : stripRight rest with
    | nil =>
      rw [hsr] at hc
      by_cases hsp : pySpace a = true
      · simp [hsp] at hc
      · simp [hsp] at hc; simp [hc]
    | cons x xs =>
      rw [hsr] at hc
      rcases List.mem_cons.mp hc with rfl | hc
      · exact List.mem_cons_self c rest
      · exact List.mem_cons_of_mem a (ih (hsr ▸ hc))

/-- `stripRight` keeps the head of a non-empty result. -/
theorem stripRight_head : ∀ (x : Char) (xs : List Char),
    stripRight (x :: xs) = [] ∨ (stripRight (x :: xs)).head? = some x := by
  intro x xs
  unfold stripRight
  cases hsr : stripRight xs with
  | nil =>
    by_cases hsp : pySpace x = true
    · left; simp [hsp]
    · right; simp [hsp]
  | cons y ys => right; rfl

/-- The last character of `stripRight l` is never whitespace. -/
theorem stripRight_getLast : ∀ {l : List Char} {c : Char},
    (stripRight l).getLast? = some c → pySpace c = false := by
  intro l
  induction l with
  | nil => intro c hc; simp [stripRight] at hc
  | cons a rest ih =>
    intro c hc
    unfold stripRight at hc
    cases hsr : stripRight rest with
    | nil =>
      rw [hsr] at hc
      by_cases hsp : pySpace a = true
      · simp [hsp] at hc
      · simp only [hsp, if_false, Bool.false_eq_true] at hc
        have hac : a = c := by simpa using hc
        subst hac
        cases hx : pySpace a with
        | false => rfl
        | true => exact absurd hx hsp
    | cons y ys =>
      rw [hsr] at hc
      rw [List.getLast?_cons_cons] at hc
      exact ih (hsr ▸ hc)

/-- `stripRight` preserves freedom from double whitespace. -/
theorem stripRight_noDouble : ∀ {l : List Char}, noDoubleWs l = true →
    noDoubleWs (stripRight l) = true := by
  intro l
  induction l with
  | nil => intro _; rfl
  | cons a rest ih =>
    intro h
    unfold stripRight
    cases hsr : stripRight rest with
    | nil =>
      by_cases hsp : pySpace a = true
      · simp [hsp]; rfl
      · simp [hsp]; rfl
    | cons y ys =>
      have hrest := ih (noDoubleWs_tail h)
      rw [hsr] at hrest
      cases rest with
      | nil => simp [stripRight] at hsr
      | cons b rs =>
        rcases stripRight_head b rs with he | hh
        · rw [he] at hsr; exact absurd hsr (by simp)
        · rw [hsr] at hh
          simp only [List.head?_cons, Option.some.injEq] at hh
          subst hh
          simp only [noDoubleWs, Bool.and_eq_true]
          refine ⟨?_, hrest⟩
          simp only [noDoubleWs, Bool.and_eq_true] at h
          exact h.1

/-- `dropWhile` preserves freedom from double whitespace. -/
theorem dropWhile_noDouble {p : Char → Bool} : ∀ {l : List Char}, noDoubleWs l = true →
    noDoubleWs (l.dropWhile p) = true := by
  intro l
  induction l with
  | nil => intro _; rfl
  | cons a rest ih =>
    intro h
    rw [List.dropWhile_cons]
    by_cases hp : p a = true
    · simp only [hp, if_true]
      exact ih (noDoubleWs_tail h)
    · simp only [hp, if_false]
      exact h

/-- The head of a cleaned line is not whitespace. -/
theorem cleanChars_head {l : List Char} {c : Char} (h : (cleanChars l).head? = some c) :
    pySpace c = false := by
  unfold cleanChars pyStrip at h
  cases hd : (collapseWs l).dropWhile pySpace with
  | nil => rw [hd] at h; simp [stripRight] at h
  | cons x xs =>
    rw [hd] at h
    rcases stripRight_head x xs with he | hh
    · rw [he] at h; simp at h
    · rw [hh] at h
      have hxc : x = c := by simpa using h
      subst hxc
      have hw := List.head?_dropWhile_not pySpace (collapseWs l)
      rw [hd] at hw
      simpa using hw

/-- The last character of a cleaned line is not whitespace. -/
theorem cleanChars_getLast {l : List Char} {c : Char}
    (h : (cleanChars l).getLast? = some c) : pySpace c = false :=
  stripRight_getLast h

/-- A cleaned line contains no newline. -/
theorem cleanChars_no_newline {l : List Char} : '\n' ∉ cleanChars l := by
  intro hmem
  have h1 : '\n' ∈ (collapseWs l).dropWhile pySpace := mem_stripRight hmem
  have h2 : '\n' ∈ collapseWs l := List.Sublist.mem h1 (List.dropWhile_sublist pySpace)
  have h3 := collapseWs_space_mem l '\n' h2 (by decide)
  simp at h3

/-- A cleaned line has no two adjacent whitespace characters. -/
theorem cleanChars_noDouble (l : List Char) : noDoubleWs (cleanChars l) = true :=
  stripRight_noDouble (dropWhile_noDouble (collapseWs_noDouble l))

/-- Every surviving line item of a span is a `clean_text` image that
passed `keepLine`. -/
theorem mem_span_items {sp : List Char} {item : String} (h : item ∈ span_items sp) :
    (∃ l0, item = String.mk (cleanChars l0)) ∧ keepLine item = true := by
  unfold span_items at h
  rcases List.mem_filter.mp h with ⟨hmem, hkeep⟩
  rcases List.mem_map.mp hmem with ⟨l0, _, rfl⟩
  exact ⟨⟨l0, rfl⟩, hkeep⟩

/-- Every line item of a category is a `clean_text` image that passed
`keepLine`. -/
theorem mem_sections_item {chars : List Char} {ty : SecType} {item : String}
    (h : item ∈ sectionsFor chars ty) :
    (∃ l0, item = String.mk (cleanChars l0)) ∧ keepLine item = true := by
  unfold sectionsFor at h
  rcases List.mem_flatMap.mp h with ⟨sp, _, hsp⟩
  exact mem_span_items hsp

/-- **C10.**  Every line item in every category sequence returned by
`parse_job_text` is whitespace-normalized — no leading or trailing
whitespace character, no newline, no two consecutive whitespace
characters — and strictly longer than 15 characters. -/
theorem c10_line_items_normalized (text : String) (item : String)
    (h : item ∈ (parse_job_text text).responsibilities
        ++ (parse_job_text text).requirements ++ (parse_job_text text).preferred
        ++ (parse_job_text text).benefits ++ (parse_job_text text).about_company) :
    (∀ c, item.toList.head? = some c → pySpace c = false) ∧
    (∀ c, item.toList.getLast? = some c → pySpace c = false) ∧
    '\n' ∉ item.toList ∧
    noDoubleWs item.toList = true ∧
    15 < item.toList.length := by
  have e1 : (parse_job_text text).responsibilities
      = sectionsFor text.toList .responsibilities := rfl
  have e2 : (parse_job_text text).requirements = sectionsFor text.toList .requirements := rfl
  have e3 : (parse_job_text text).preferred = sectionsFor text.toList .preferred := rfl
  have e4 : (parse_job_text text).benefits = sectionsFor text.toList .benefits := rfl
  have e5 : (parse_job_text text).about_company
      = sectionsFor text.toList .about_company := rfl
  have hx : (∃ l0, item = String.mk (cleanChars l0)) ∧ keepLine item = true := by
    rw [e1, e2, e3, e4, e5] at h
    simp only [List.mem_append] at h
    rcases h with (((h | h) | h) | h) | h <;> exact mem_sections_item h
  obtain ⟨⟨l0, rfl⟩, hkeep⟩ := hx
  have hlen : 15 < (String.mk (cleanChars l0)).toList.length := by
    unfold keepLine at hkeep
    simp only [Bool.and_eq_true, decide_eq_true_eq] at hkeep
    exact hkeep.1.1.2
  exact ⟨fun c hc => cleanChars_head hc, fun c hc => cleanChars_getLast hc,
    cleanChars_no_newline, cleanChars_noDouble l0, hlen⟩

set_option maxRecDepth 100000 in
set_option maxHeartbeats 2000000 in
/-- Witness for C10 at a concrete posting and item. -/
theorem c10_line_items_normalized_witness :
    (∀ c, ("Great tests, much joy.").toList.head? = some c → pySpace c = false) ∧
    (∀ c, ("Great tests, much joy.").toList.getLast? = some c → pySpace c = false) ∧
    '\n' ∉ ("Great tests, much joy.").toList ∧
    noDoubleWs ("Great tests, much joy.").toList = true ∧
    15 < ("Great tests, much joy.").toList.length :=
  c10_line_items_normalized "Requirements\nGreat tests, much joy.\n"
    "Great tests, much joy." (by decide)

theorem leChars_total : ∀ a b : List Char, leChars a b = true ∨ leChars b a = true := by
  intro a
  induction a with
  | nil => intro b; left; rfl
  | cons x xs ih =>
    intro b
    cases b with
    | nil => right; rfl
    | cons y ys =>
      simp only [leChars]
      rcases Nat.lt_trichotomy x.toNat y.toNat with h | h | h
      · left; simp [h]
      · have h1 : ¬x.toNat < y.toNat := by omega
        have h2 : ¬y.toNat < x.toNat := by omega
        rcases ih ys with hle | hle
        · left; simp [h1, h2, hle]
        · right; simp [h1, h2, hle]
      · right; simp [h]

theorem leChars_trans : ∀ a b c : List Char,
    leChars a b = true → leChars b c = true → leChars a c = true := by
  intro a
  induction a with
  | nil => intro b c _ _; rfl
  | cons x xs ih =>
    intro b c hab hbc
    cases b with
    | nil => simp [leChars] at hab
    | cons y ys =>
      cases c with
      | nil => simp [leChars] at hbc
      | cons z zs =>
        simp only [leChars] at hab hbc ⊢
        rcases Nat.lt_trichotomy x.toNat y.toNat with h1 | h1 | h1
        · rcases Nat.lt_trichotomy y.toNat z.toNat with h2 | h2 | h2
          · simp [show x.toNat < z.toNat by omega]
          · simp [show x.toNat < z.toNat by omega]
          · have hz1 : ¬y.toNat < z.toNat := by omega
            simp [hz1, h2] at hbc
        · rcases Nat.lt_trichotomy y.toNat z.toNat with h2 | h2 | h2
          · simp [show x.toNat < z.toNat by omega]
          · have e1 : ¬x.toNat < y.toNat := by omega
            have e2 : ¬y.toNat < x.toNat := by omega
            have e3 : ¬y.toNat < z.toNat := by omega
            have e4 : ¬z.toNat < y.toNat := by omega
            have e5 : ¬x.toNat < z.toNat := by omega
            have e6 : ¬z.toNat < x.toNat := by omega
            simp only [e1, e2, if_false, if_neg] at hab
            simp only [e3, e4, if_false, if_neg] at hbc
            simp only [e5, e6, if_false, if_neg]
            exact ih ys zs hab hbc
          · have hz1 : ¬y.toNat < z.toNat := by omega
            simp [hz1, h2] at hbc
        · have hz1 : ¬x.toNat < y.toNat := by omega
          simp [hz1, h1] at hab

instance : IsTotal String skLe :=
  ⟨fun a b => leChars_total (lowerL a.toList) (lowerL b.toList)⟩

instance : IsTrans String skLe :=
  ⟨fun a b c hab hbc =>
    leChars_trans (lowerL a.toList) (lowerL b.toList) (lowerL c.toList) hab hbc⟩

/-- Invariant of the skills-dictionary fold: distinct keys, each key the
lowercasing of its value, each value the first match with its key, and
every processed match covered by some key. -/
def SkInv (seen : List String) (acc : List (String × String)) : Prop :=
  List.Pairwise (fun p q => p.1 ≠ q.1) acc ∧
  (∀ p ∈ acc, p.1 = lowerS p.2 ∧ seen.find? (fun s => lowerS s == p.1) = some p.2) ∧
  (∀ m ∈ seen, ∃ p ∈ acc, p.1 = lowerS m)

theorem skillStep_inv {seen : List String} {acc : List (String × String)} {m : String}
    (h : SkInv seen acc) : SkInv (seen ++ [m]) (skillStep acc m) := by
  obtain ⟨hnd, hfind, hcover⟩ := h
  unfold skillStep
  by_cases hany : (acc.any fun e => e.1 == lowerS m) = true
  · rw [if_pos hany]
    refine ⟨hnd, ?_, ?_⟩
    · intro p hp
      obtain ⟨h1, h2⟩ := hfind p hp
      refine ⟨h1, ?_⟩
      rw [List.find?_append, h2, Option.or_some]
    · intro x hx
      rcases List.mem_append.mp hx with hx | hx
      · exact hcover x hx
      · rcases List.mem_singleton.mp hx with rfl
        rcases List.any_eq_true.mp hany with ⟨e, he, heq⟩
        exact ⟨e, he, eq_of_beq heq⟩
  · rw [if_neg hany]
    refine ⟨?_, ?_, ?_⟩
    · rw [List.pairwise_append]
      refine ⟨hnd, List.pairwise_singleton _ _, ?_⟩
      intro p hp q hq
      rcases List.mem_singleton.mp hq with rfl
      intro hcontra
      exact hany (List.any_eq_true.mpr ⟨p, hp, by rw [hcontra]; exact beq_self_eq_true _⟩)
    · intro p hp
      rcases List.mem_append.mp hp with hp | hp
      · obtain ⟨h1, h2⟩ := hfind p hp
        exact ⟨h1, by rw [List.find?_append, h2, Option.or_some]⟩
      · rcases List.mem_singleton.mp hp with rfl
        refine ⟨rfl, ?_⟩
        have hnone : seen.find? (fun s => lowerS s == lowerS m) = none := by
          rw [List.find?_eq_none]
          intro s hs hbeq
          rcases hcover s hs with ⟨p, hp, hps⟩
          refine hany (List.any_eq_true.mpr ⟨p, hp, ?_⟩)
          rw [hps, eq_of_beq hbeq]
          exact beq_self_eq_true _
        rw [List.find?_append, hnone, Option.none_or]
        simp [List.find?]
    · intro x hx
      rcases List.mem_append.mp hx with hx | hx
      · rcases hcover x hx with ⟨p, hp, hps⟩
        exact ⟨p, List.mem_append_left _ hp, hps⟩
      · rcases List.mem_singleton.mp hx with rfl
        exact ⟨(lowerS x, x), List.mem_append_right _ (List.mem_singleton.mpr rfl), rfl⟩

theorem skillFold_inv_aux : ∀ (ms seen : List String) (acc : List (String × String)),
    SkInv seen acc → SkInv (seen ++ ms) (ms.foldl skillStep acc) := by
  intro ms
  induction ms with
  | nil => intro seen acc h; simpa using h
  | cons m rest ih =>
    intro seen acc h
    have h3 := ih (seen ++ [m]) (skillStep acc m) (skillStep_inv h)
    simpa [List.append_assoc] using h3

theorem skillFold_inv (ms : List String) : SkInv ms (skillFold ms) := by
  have h := skillFold_inv_aux ms [] [] ⟨List.Pairwise.nil, by simp, by simp⟩
  simpa [skillFold] using h

/-- **C7.**  For every text, the skill list contains no two entries
equal after lowercasing, is sorted case-insensitively, and each entry's
casing is that of the first occurrence of that skill in pattern-scan
order (`allSkillMatches`: patterns in order, matches in text order). -/
theorem c7_skills_dedup_sorted (text : String) :
    List.Pairwise (fun a b => lowerS a ≠ lowerS b) (extract_skills text) ∧
    List.Pairwise skLe (extract_skills text) ∧
    ∀ e ∈ extract_skills text,
      (allSkillMatches text).find? (fun s => lowerS s == lowerS e) = some e := by
  obtain ⟨hnd, hfind, _⟩ := skillFold_inv (allSkillMatches text)
  have hperm : extract_skills text
      = ((skillFold (allSkillMatches text)).map Prod.snd).insertionSort skLe := rfl
  have hperm2 : List.Perm
      (((skillFold (allSkillMatches text)).map Prod.snd).insertionSort skLe)
      ((skillFold (allSkillMatches text)).map Prod.snd) :=
    List.perm_insertionSort skLe _
  refine ⟨?_, ?_, ?_⟩
  · have hmap : List.Pairwise (fun a b : String => lowerS a ≠ lowerS b)
        ((skillFold (allSkillMatches text)).map Prod.snd) := by
      rw [List.pairwise_map]
      refine hnd.imp_of_mem ?_
      intro p q hp hq hne
      rw [← (hfind p hp).1, ← (hfind q hq).1]
      exact hne
    rw [hperm]
    exact (hperm2.pairwise_iff fun h => Ne.symm h).mpr hmap
  · exact List.sorted_insertionSort skLe _
  · intro e he
    rw [hperm] at he
    have he' : e ∈ (skillFold (allSkillMatches text)).map Prod.snd := hperm2.mem_iff.mp he
    rcases List.mem_map.mp he' with ⟨p, hp, rfl⟩
    obtain ⟨h1, h2⟩ := hfind p hp
    rw [h1] at h2
    exact h2

/-- Witness for C7 at a concrete text with a case-insensitive duplicate. -/
theorem c7_skills_dedup_sorted_witness :
    List.Pairwise (fun a b => lowerS a ≠ lowerS b) (extract_skills "Go and go and Rust") ∧
    List.Pairwise skLe (extract_skills "Go and go and Rust") ∧
    (allSkillMatches "Go and go and Rust").find?
      (fun s => lowerS s == lowerS "Go") = some "Go" :=
  ⟨(c7_skills_dedup_sorted "Go and go and Rust").1,
   (c7_skills_dedup_sorted "Go and go and Rust").2.1,
   (c7_skills_dedup_sorted "Go and go and Rust").2.2 "Go" (by decide)⟩

/-!
## Soundness of the matcher's captures

To establish that `extract_basic_info`'s text-derived fields are
trimmed non-empty strings for every input text, we prove that every
capture a pattern records consists of characters drawn from the
pattern's character classes and is at least the captured subterm's
guaranteed length.
-/

/-- The union of the character classes occurring in a pattern. -/
def allChars : RE → Char → Bool
  | .eps, _ => false
  | .cls f, c => f c
  | .seq a b, c => allChars a c || allChars b c
  | .alt a b, c => allChars a c || allChars b c
  | .opt a, c => allChars a c
  | .star f, c => f c
  | .rep f _ _, c => f c
  | .grp _ a, c => allChars a c
  | .lineStart, _ => false
  | .lineEnd, _ => false
  | .wordB, _ => false

/-- A lower bound on the number of characters a pattern consumes. -/
def minLen : RE → Nat
  | .eps => 0
  | .cls _ => 1
  | .seq a b => minLen a + minLen b
  | .alt a b => min (minLen a) (minLen b)
  | .opt _ => 0
  | .star _ => 0
  | .rep _ lo _ => lo
  | .grp _ a => minLen a
  | .lineStart => 0
  | .lineEnd => 0
  | .wordB => 0

/-- The captures a pattern can record: group `n` of a subterm `a` only
records strings over `a`'s classes of length at least `minLen a`. -/
def capOK : RE → Nat → List Char → Prop
  | .grp m a, n, cs =>
    (m = n ∧ minLen a ≤ cs.length ∧ ∀ c ∈ cs, allChars a c = true) ∨ capOK a n cs
  | .seq a b, n, cs => capOK a n cs ∨ capOK b n cs
  | .alt a b, n, cs => capOK a n cs ∨ capOK b n cs
  | .opt a, n, cs => capOK a n cs
  | _, _, _ => False

theorem take_add_split (l : List Char) : ∀ (m n : Nat),
    l.take (m + n) = l.take m ++ (l.drop m).take n := by
  induction l with
  | nil => intro m n; simp
  | cons c r ih =>
    intro m n
    cases m with
    | zero => simp
    | succ k =>
      rw [Nat.succ_add, List.take_succ_cons, List.take_succ_cons, List.drop_succ_cons,
        ih k n, List.cons_append]

theorem starChain_mem {f : Char → Bool} {caps : List (Nat × List Char)} :
    ∀ (rest : List Char) (pos : Nat) (prev : Option Char) (s' : MSt),
    s' ∈ starChain f caps pos prev rest →
    pos ≤ s'.pos ∧ s'.pos - pos ≤ rest.length ∧ s'.rest = rest.drop (s'.pos - pos) ∧
    (∀ c ∈ rest.take (s'.pos - pos), f c = true) ∧ s'.caps = caps := by
  intro rest
  induction rest with
  | nil =>
    intro pos prev s' h
    simp only [starChain, List.mem_singleton] at h
    subst h
    simp
  | cons c r ih =>
    intro pos prev s' h
    unfold starChain at h
    rcases List.mem_cons.mp h with rfl | h2
    · simp
    · by_cases hf : f c = true
      · rw [if_pos hf] at h2
        obtain ⟨h1, h2', h3, h4, h5⟩ := ih (pos + 1) (some c) s' h2
        have hd : s'.pos - pos = (s'.pos - (pos + 1)) + 1 := by omega
        refine ⟨by omega, ?_, ?_, ?_, h5⟩
        · simp only [List.length_cons]; omega
        · rw [hd, List.drop_succ_cons]; exact h3
        · rw [hd]
          intro x hx
          rw [List.take_succ_cons] at hx
          rcases List.mem_cons.mp hx with rfl | hx
          · exact hf
          · exact h4 x hx
      · rw [if_neg hf] at h2
        simp at h2

theorem starChain_get? {f : Char → Bool} {caps : List (Nat × List Char)} :
    ∀ (rest : List Char) (pos : Nat) (prev : Option Char) (i : Nat) (s' : MSt),
    (starChain f caps pos prev rest).get? i = some s' → s'.pos = pos + i := by
  intro rest
  induction rest with
  | nil =>
    intro pos prev i s' h
    cases i with
    | zero =>
      simp only [starChain, List.get?_cons_zero, Option.some.injEq] at h
      rw [← h]
      simp
    | succ n => simp [starChain] at h
  | cons c r ih =>
    intro pos prev i s' h
    unfold starChain at h
    cases i with
    | zero =>
      simp only [List.get?_cons_zero, Option.some.injEq] at h
      rw [← h]
      simp
    | succ n =>
      rw [List.get?_cons_succ] at h
      by_cases hf : f c = true
      · rw [if_pos hf] at h
        have := ih (pos + 1) (some c) n s' h
        omega
      · rw [if_neg hf] at h
        simp at h

theorem get?_drop_eq (lo : Nat) (l : List MSt) (j : Nat) :
    (l.drop lo).get? j = l.get? (lo + j) := by
  induction lo generalizing l with
  | zero => simp
  | succ k ih =>
    cases l with
    | nil => simp
    | cons x xs =>
      rw [List.drop_succ_cons, ih xs]
      have he : k + 1 + j = (k + j) + 1 := by omega
      rw [he, List.get?_cons_succ]

/-- The soundness conjunction at a zero-width match. -/
theorem sound_refl (r : RE) (hm : minLen r = 0) (s : MSt) :
    s.pos ≤ s.pos ∧ s.pos - s.pos ≤ s.rest.length ∧
    s.rest = s.rest.drop (s.pos - s.pos) ∧
    (∀ c ∈ s.rest.take (s.pos - s.pos), allChars r c = true) ∧
    minLen r ≤ s.pos - s.pos ∧
    ∃ nc, s.caps = nc ++ s.caps ∧ ∀ p ∈ nc, capOK r p.1 p.2 := by
  rw [Nat.sub_self]
  exact ⟨Nat.le_refl _, Nat.zero_le _, by simp, by simp, by simp [hm], [], by simp, by simp⟩

/-- Matcher soundness: a match consumes a segment of the remaining text
whose characters come from the pattern's classes, is at least `minLen`
long, and every new capture satisfies `capOK`. -/
theorem mtch_sound : ∀ (r : RE) (s s' : MSt), s' ∈ mtch r s →
    s.pos ≤ s'.pos ∧ s'.pos - s.pos ≤ s.rest.length ∧
    s'.rest = s.rest.drop (s'.pos - s.pos) ∧
    (∀ c ∈ s.rest.take (s'.pos - s.pos), allChars r c = true) ∧
    minLen r ≤ s'.pos - s.pos ∧
    ∃ nc, s'.caps = nc ++ s.caps ∧ ∀ p ∈ nc, capOK r p.1 p.2 := by
  intro r
  induction r with
  | eps =>
    intro s s' h
    simp only [mtch, List.mem_singleton] at h
    subst h
    exact sound_refl .eps rfl _
  | cls f =>
    intro s s' h
    unfold mtch at h
    cases hr : s.rest with
    | nil => rw [hr] at h; simp at h
    | cons c rest =>
      rw [hr] at h
      by_cases hf : f c = true
      · simp only [hf, if_true, List.mem_singleton] at h
        subst h
        have hd : s.pos + 1 - s.pos = 1 := by omega
        refine ⟨?_, ?_, ?_, ?_, ?_, [], by simp, by simp⟩
        · show s.pos ≤ s.pos + 1
          omega
        · show s.pos + 1 - s.pos ≤ (c :: rest).length
          rw [hd]; simp
        · show rest = (c :: rest).drop (s.pos + 1 - s.pos)
          rw [hd]; simp
        · show ∀ c0 ∈ (c :: rest).take (s.pos + 1 - s.pos), allChars (.cls f) c0 = true
          rw [hd]
          intro x hx
          simp only [List.take_succ_cons, List.take_zero, List.mem_singleton] at hx
          subst hx
          exact hf
        · show minLen (.cls f) ≤ s.pos + 1 - s.pos
          rw [hd]
          exact Nat.le_refl 1
      · simp [hf] at h
  | seq a b iha ihb =>
    intro s s' h
    unfold mtch at h
    rcases List.mem_flatMap.mp h with ⟨s₁, h₁, h₂⟩
    obtain ⟨a1, a2, a3, a4, a5, nc₁, ac, aok⟩ := iha s s₁ h₁
    obtain ⟨b1, b2, b3, b4, b5, nc₂, bc, bok⟩ := ihb s₁ s' h₂
    have hlen1 : s₁.rest.length = s.rest.length - (s₁.pos - s.pos) := by rw [a3]; simp
    have hd : s'.pos - s.pos = (s₁.pos - s.pos) + (s'.pos - s₁.pos) := by omega
    refine ⟨by omega, by omega, ?_, ?_, ?_, nc₂ ++ nc₁, ?_, ?_⟩
    · rw [b3, a3, List.drop_drop]
      congr 1
      omega
    · rw [hd, take_add_split]
      intro c hc
      rcases List.mem_append.mp hc with hc | hc
      · have hac := a4 c hc
        show (allChars a c || allChars b c) = true
        simp [hac]
      · rw [← a3] at hc
        have hbc := b4 c hc
        show (allChars a c || allChars b c) = true
        simp [hbc]
    · show minLen a + minLen b ≤ s'.pos - s.pos
      omega
    · rw [bc, ac, List.append_assoc]
    · intro p hp
      rcases List.mem_append.mp hp with hp | hp
      · exact Or.inr (bok p hp)
      · exact Or.inl (aok p hp)
  | alt a b iha ihb =>
    intro s s' h
    unfold mtch at h
    rcases List.mem_append.mp h with h | h
    · obtain ⟨a1, a2, a3, a4, a5, nc, ac, aok⟩ := iha s s' h
      refine ⟨a1, a2, a3, ?_, ?_, nc, ac, fun p hp => Or.inl (aok p hp)⟩
      · intro c hc
        show (allChars a c || allChars b c) = true
        simp [a4 c hc]
      · show min (minLen a) (minLen b) ≤ s'.pos - s.pos
        omega
    · obtain ⟨a1, a2, a3, a4, a5, nc, ac, aok⟩ := ihb s s' h
      refine ⟨a1, a2, a3, ?_, ?_, nc, ac, fun p hp => Or.inr (aok p hp)⟩
      · intro c hc
        show (allChars a c || allChars b c) = true
        simp [a4 c hc]
      · show min (minLen a) (minLen b) ≤ s'.pos - s.pos
        omega
  | opt a iha =>
    intro s s' h
    unfold mtch at h
    rcases List.mem_append.mp h with h | h
    · obtain ⟨a1, a2, a3, a4, a5, nc, ac, aok⟩ := iha s s' h
      exact ⟨a1, a2, a3, a4, Nat.zero_le _, nc, ac, aok⟩
    · simp only [List.mem_singleton] at h
      subst h
      exact sound_refl (.opt a) rfl _
  | star f =>
    intro s s' h
    unfold mtch at h
    rw [List.mem_reverse] at h
    obtain ⟨h1, h2, h3, h4, h5⟩ := starChain_mem s.rest s.pos s.prev s' h
    exact ⟨h1, h2, h3, h4, Nat.zero_le _, [], by simp [h5], by simp⟩
  | rep f lo hi =>
    intro s s' h
    unfold mtch at h
    rw [List.mem_reverse] at h
    have hmem_drop : s' ∈ (starChain f s.caps s.pos s.prev s.rest).drop lo :=
      List.mem_of_mem_take h
    have hmem : s' ∈ starChain f s.caps s.pos s.prev s.rest :=
      List.mem_of_mem_drop hmem_drop
    obtain ⟨h1, h2, h3, h4, h5⟩ := starChain_mem s.rest s.pos s.prev s' hmem
    obtain ⟨j, hj⟩ := List.mem_iff_get?.mp hmem_drop
    rw [get?_drop_eq] at hj
    have hpos := starChain_get? s.rest s.pos s.prev (lo + j) s' hj
    refine ⟨h1, h2, h3, h4, ?_, [], by simp [h5], by simp⟩
    show lo ≤ s'.pos - s.pos
    omega
  | grp n a iha =>
    intro s s' h
    unfold mtch at h
    rcases List.mem_map.mp h with ⟨s₁, h₁, rfl⟩
    obtain ⟨a1, a2, a3, a4, a5, nc, ac, aok⟩ := iha s s₁ h₁
    refine ⟨a1, a2, a3, a4, a5, (n, s.rest.take (s₁.pos - s.pos)) :: nc, ?_, ?_⟩
    · show (n, s.rest.take (s₁.pos - s.pos)) :: s₁.caps
        = ((n, s.rest.take (s₁.pos - s.pos)) :: nc) ++ s.caps
      rw [ac]
      rfl
    · intro p hp
      rcases List.mem_cons.mp hp with rfl | hp
      · refine Or.inl ⟨rfl, ?_, ?_⟩
        · show minLen a ≤ (s.rest.take (s₁.pos - s.pos)).length
          rw [List.length_take]
          omega
        · exact fun c hc => a4 c hc
      · exact Or.inr (aok p hp)
  | lineStart =>
    intro s s' h
    unfold mtch at h
    split at h
    · simp only [List.mem_singleton] at h
      subst h
      exact sound_refl .lineStart rfl _
    · simp at h
  | lineEnd =>
    intro s s' h
    unfold mtch at h
    split at h
    · simp only [List.mem_singleton] at h
      subst h
      exact sound_refl .lineEnd rfl _
    · simp at h
  | wordB =>
    intro s s' h
    unfold mtch at h
    split at h
    · simp only [List.mem_singleton] at h
      subst h
      exact sound_refl .wordB rfl _
    · simp at h

/-- A successful `re.search` only records `capOK` captures. -/
theorem searchAux_capOK : ∀ (fuel : Nat) (s : MSt) (re : RE)
    (caps : List (Nat × List Char)), s.caps = [] → searchAux re fuel s = some caps →
    ∀ p ∈ caps, capOK re p.1 p.2 := by
  intro fuel
  induction fuel with
  | zero => intro s re caps h0 h; simp [searchAux] at h
  | succ n ih =>
    intro s re caps h0 h
    unfold searchAux at h
    cases hm : (mtch re s).head? with
    | some s' =>
      rw [hm] at h
      have hmem : s' ∈ mtch re s := List.mem_of_mem_head? (by simp [hm])
      obtain ⟨_, _, _, _, _, nc, hcaps, hok⟩ := mtch_sound re s s' hmem
      have hcs : caps = s'.caps := by
        simpa using h.symm
      rw [hcs, hcaps, h0, List.append_nil]
      exact hok
    | none =>
      rw [hm] at h
      cases hr : s.rest with
      | nil => rw [hr] at h; simp at h
      | cons c r =>
        rw [hr] at h
        exact ih ⟨some c, s.pos + 1, r, s.caps⟩ re caps h0 h

/-- `searchRe` only records `capOK` captures. -/
theorem searchRe_capOK {re : RE} {text : String} {caps : List (Nat × List Char)}
    (h : searchRe re text = some caps) : ∀ p ∈ caps, capOK re p.1 p.2 :=
  searchAux_capOK (text.toList.length + 1) ⟨none, 0, text.toList, []⟩ re caps rfl h

/-- The six Python whitespace characters. -/
theorem pySpace_cases {c : Char} (h : pySpace c = true) :
    c = ' ' ∨ c = '\t' ∨ c = '\n' ∨ c = '\x0d' ∨ c = '\x0b' ∨ c = '\x0c' := by
  unfold pySpace at h
  rcases Bool.or_eq_true_iff.mp h with h | h
  · rcases Bool.or_eq_true_iff.mp h with h | h
    · rcases Bool.or_eq_true_iff.mp h with h | h
      · rcases Bool.or_eq_true_iff.mp h with h | h
        · rcases Bool.or_eq_true_iff.mp h with h | h
          · exact Or.inl (eq_of_beq h)
          · exact Or.inr (Or.inl (eq_of_beq h))
        · exact Or.inr (Or.inr (Or.inl (eq_of_beq h)))
      · exact Or.inr (Or.inr (Or.inr (Or.inl (eq_of_beq h))))
    · exact Or.inr (Or.inr (Or.inr (Or.inr (Or.inl (eq_of_beq h)))))
  · exact Or.inr (Or.inr (Or.inr (Or.inr (Or.inr (eq_of_beq h)))))

/-- Digit-or-comma characters are not whitespace. -/
theorem digitComma_nospace {c : Char} (h : digitComma c = true) : pySpace c = false := by
  cases hs : pySpace c with
  | false => rfl
  | true =>
    rcases pySpace_cases hs with rfl | rfl | rfl | rfl | rfl | rfl <;>
      exact absurd h (by decide)

/-- Characters of the period-unit alternation are not whitespace. -/
theorem unitAlt_nospace {c : Char}
    (h : allChars (altL [litS "year", litS "yr", litS "annually", litS "hour", litS "hr",
      litS "hourly", litS "month", litS "monthly"]) c = true) : pySpace c = false := by
  cases hs : pySpace c with
  | false => rfl
  | true =>
    rcases pySpace_cases hs with rfl | rfl | rfl | rfl | rfl | rfl <;>
      exact absurd h (by decide)

/-- Syntactic condition: every capturing group's body has no whitespace
in its character classes. -/
def grpBodySpaceFree : RE → Prop
  | .grp _ a => (∀ c, pySpace c = true → allChars a c = false) ∧ grpBodySpaceFree a
  | .seq a b => grpBodySpaceFree a ∧ grpBodySpaceFree b
  | .alt a b => grpBodySpaceFree a ∧ grpBodySpaceFree b
  | .opt a => grpBodySpaceFree a
  | _ => True

/-- Captures of whitespace-free groups contain no whitespace. -/
theorem capOK_nospace : ∀ (r : RE), grpBodySpaceFree r → ∀ {n : Nat} {cs : List Char},
    capOK r n cs → ∀ c ∈ cs, pySpace c = false := by
  intro r
  induction r with
  | eps => intro _ n cs h; exact h.elim
  | cls f => intro _ n cs h; exact h.elim
  | seq a b iha ihb =>
    intro hg n cs h
    rcases h with h | h
    · exact iha hg.1 h
    · exact ihb hg.2 h
  | alt a b iha ihb =>
    intro hg n cs h
    rcases h with h | h
    · exact iha hg.1 h
    · exact ihb hg.2 h
  | opt a iha => intro hg n cs h; exact iha hg h
  | star f => intro _ n cs h; exact h.elim
  | rep f lo hi => intro _ n cs h; exact h.elim
  | grp m a iha =>
    intro hg n cs h
    rcases h with ⟨_, _, hall⟩ | h
    · intro c hc
      cases hs : pySpace c with
      | false => rfl
      | true =>
        have hfalse := hg.1 c hs
        rw [hall c hc] at hfalse
        exact absurd hfalse (by simp)
    · exact iha hg.2 h
  | lineStart => intro _ n cs h; exact h.elim
  | lineEnd => intro _ n cs h; exact h.elim
  | wordB => intro _ n cs h; exact h.elim

theorem bodyNospace_digit : ∀ c, pySpace c = true → allChars (plusC digitComma) c = false := by
  intro c h
  rcases pySpace_cases h with rfl | rfl | rfl | rfl | rfl | rfl <;> decide

theorem bodyNospace_pydigit : ∀ c, pySpace c = true → allChars (plusC pyDigit) c = false := by
  intro c h
  rcases pySpace_cases h with rfl | rfl | rfl | rfl | rfl | rfl <;> decide

theorem bodyNospace_unit : ∀ c, pySpace c = true →
    allChars (altL [litS "year", litS "yr", litS "annually", litS "hour", litS "hr",
      litS "hourly", litS "month", litS "monthly"]) c = false := by
  intro c h
  rcases pySpace_cases h with rfl | rfl | rfl | rfl | rfl | rfl <;> decide

theorem grpFree_salPat1 : grpBodySpaceFree salPat1 := by
  unfold salPat1 seqL
  simp only [grpBodySpaceFree, and_true, true_and]
  repeat' apply And.intro
  all_goals first
    | trivial
    | exact bodyNospace_digit
    | exact bodyNospace_unit

theorem grpFree_salPat2 : grpBodySpaceFree salPat2 := by
  unfold salPat2 seqL
  simp only [grpBodySpaceFree, and_true, true_and]
  repeat' apply And.intro
  all_goals first
    | trivial
    | exact bodyNospace_digit

/-- All captures of a successful whitespace-free-group search are
whitespace-free. -/
theorem searchRe_caps_nospace {pat : RE} {text : String} {caps : List (Nat × List Char)}
    (hfree : grpBodySpaceFree pat) (h : searchRe pat text = some caps) :
    ∀ p ∈ caps, ∀ c ∈ p.2, pySpace c = false :=
  fun p hp => capOK_nospace pat hfree (searchRe_capOK h p hp)

/-- "No leading whitespace" of a character list. -/
def headOkL (l : List Char) : Prop := ∀ c, l.head? = some c → pySpace c = false

/-- "No trailing whitespace" of a character list. -/
def tailOkL (l : List Char) : Prop := ∀ c, l.getLast? = some c → pySpace c = false

theorem toList_append (s t : String) : (s ++ t).toList = s.toList ++ t.toList := by
  show (s ++ t).data = s.data ++ t.data
  exact String.data_append s t

theorem toList_ne_nil {s : String} (h : s ≠ "") : s.toList ≠ [] := by
  intro he
  apply h
  cases s with
  | mk d =>
    cases d with
    | nil => rfl
    | cons a l => exact absurd he (List.cons_ne_nil a l)

theorem mem_of_getLast? : ∀ {l : List Char} {c : Char}, l.getLast? = some c → c ∈ l := by
  intro l
  induction l with
  | nil => intro c h; simp at h
  | cons a rest ih =>
    intro c h
    cases rest with
    | nil =>
      simp only [List.getLast?_singleton, Option.some.injEq] at h
      simp [h]
    | cons b r =>
      rw [List.getLast?_cons_cons] at h
      exact List.mem_cons_of_mem a (ih h)

theorem tailOk_all {l : List Char} (h : ∀ c ∈ l, pySpace c = false) : tailOkL l :=
  fun c hc => h c (mem_of_getLast? hc)

theorem tailOk_append_ne {l₁ l₂ : List Char} (h2 : tailOkL l₂) (hne : l₂ ≠ []) :
    tailOkL (l₁ ++ l₂) := by
  intro c hc
  rw [List.getLast?_append] at hc
  cases hl2 : l₂.getLast? with
  | none => exact absurd (List.getLast?_eq_none_iff.mp hl2) hne
  | some d =>
    rw [hl2] at hc
    have hdc : d = c := by simpa using hc
    subst hdc
    exact h2 d hl2

theorem tailOk_append_full {l₁ l₂ : List Char} (h1 : tailOkL l₁)
    (h2 : ∀ c ∈ l₂, pySpace c = false) : tailOkL (l₁ ++ l₂) := by
  intro c hc
  rw [List.getLast?_append] at hc
  cases hl2 : l₂.getLast? with
  | none =>
    rw [hl2] at hc
    simp only [Option.none_or] at hc
    exact h1 c hc
  | some d =>
    rw [hl2] at hc
    have hdc : d = c := by simpa using hc
    subst hdc
    exact h2 d (mem_of_getLast? hl2)

theorem tailOk_dollar : tailOkL "$".toList := by
  intro c hc
  have h : ("$".toList : List Char).getLast? = some '$' := rfl
  rw [h] at hc
  have : '$' = c := by simpa using hc
  subst this
  decide

theorem tailOk_dashDollar : tailOkL " - $".toList := by
  intro c hc
  have h : (" - $".toList : List Char).getLast? = some '$' := rfl
  rw [h] at hc
  have : '$' = c := by simpa using hc
  subst this
  decide

theorem headOk_append_dollar (x : String) : headOkL ("$" ++ x).toList := by
  intro c hc
  rw [toList_append] at hc
  have h : ("$".toList : List Char) = ['$'] := rfl
  rw [h] at hc
  have : '$' = c := by simpa using hc
  subst this
  decide

theorem ne_empty_append_dollar (x : String) : ("$" ++ x) ≠ "" := by
  intro he
  have h : ("$" ++ x).toList = '$' :: x.toList := by
    rw [toList_append]
    rfl
  rw [he] at h
  have h0 : ("" : String).toList = [] := rfl
  rw [h0] at h
  exact List.noConfusion h

/-- The non-whitespace guarantee for looked-up captures. -/
theorem capLookup_nospace {caps : List (Nat × List Char)}
    (hns : ∀ p ∈ caps, ∀ c ∈ p.2, pySpace c = false) (n : Nat) :
    ∀ c ∈ (capLookup caps n).getD [], pySpace c = false := by
  intro c hc
  cases hl : capLookup caps n with
  | none => rw [hl] at hc; simp at hc
  | some cs =>
    rw [hl] at hc
    unfold capLookup at hl
    cases hf : caps.find? (fun p => p.1 == n) with
    | none => rw [hf] at hl; simp at hl
    | some p =>
      rw [hf] at hl
      simp at hl
      subst hl
      exact hns p (List.mem_of_find?_eq_some hf) c hc

theorem buildSalaryBase_ne (caps : List (Nat × List Char)) : buildSalaryBase caps ≠ "" := by
  unfold buildSalaryBase
  split
  · rw [String.append_assoc, String.append_assoc]
    exact ne_empty_append_dollar _
  · exact ne_empty_append_dollar _

theorem buildSalaryBase_head (caps : List (Nat × List Char)) :
    headOkL (buildSalaryBase caps).toList := by
  unfold buildSalaryBase
  split
  · rw [String.append_assoc, String.append_assoc]
    exact headOk_append_dollar _
  · exact headOk_append_dollar _

theorem buildSalaryBase_tail (caps : List (Nat × List Char))
    (hns : ∀ p ∈ caps, ∀ c ∈ p.2, pySpace c = false) :
    tailOkL (buildSalaryBase caps).toList := by
  unfold buildSalaryBase
  split
  · rw [toList_append]
    refine tailOk_append_full ?_ ?_
    · rw [toList_append]
      exact tailOk_append_ne tailOk_dashDollar (by decide)
    · intro c hc
      exact capLookup_nospace hns 2 c hc
  · rw [toList_append]
    refine tailOk_append_full ?_ ?_
    · exact tailOk_dollar
    · intro c hc
      exact capLookup_nospace hns 1 c hc

theorem buildSalary_good (caps : List (Nat × List Char))
    (hns : ∀ p ∈ caps, ∀ c ∈ p.2, pySpace c = false) :
    buildSalary caps ≠ "" ∧ headOkL (buildSalary caps).toList ∧
      tailOkL (buildSalary caps).toList := by
  unfold buildSalary
  split
  · rename_i hcond
    have h3 : truthyCap (capLookup caps 3) = true := by
      simp only [Bool.and_eq_true] at hcond
      exact hcond.2
    refine ⟨?_, ?_, ?_⟩
    · intro he
      have : (buildSalaryBase caps ++ " per "
          ++ String.mk ((capLookup caps 3).getD [])).toList = [] := by
        rw [he]; rfl
      rw [toList_append, toList_append] at this
      rcases List.append_eq_nil.mp this with ⟨h1, _⟩
      rcases List.append_eq_nil.mp h1 with ⟨_, h2⟩
      exact absurd h2 (by decide)
    · intro c hc
      rw [toList_append, toList_append] at hc
      rw [List.append_assoc] at hc
      cases hb : (buildSalaryBase caps).toList with
      | nil => exact absurd hb (toList_ne_nil (buildSalaryBase_ne caps))
      | cons x xs =>
        rw [hb] at hc
        simp only [List.cons_append, List.head?_cons, Option.some.injEq] at hc
        subst hc
        exact buildSalaryBase_head caps _ (by rw [hb]; rfl)
    · rw [toList_append, toList_append, List.append_assoc]
      refine tailOk_append_ne (tailOk_append_ne ?_ ?_) ?_
      · exact tailOk_all fun c hc => capLookup_nospace hns 3 c hc
      · cases ht : capLookup caps 3 with
        | none => rw [ht] at h3; exact absurd h3 (by decide)
        | some cs =>
          cases cs with
          | nil => rw [ht] at h3; exact absurd h3 (by decide)
          | cons d ds =>
            simp
      · intro he
        rcases List.append_eq_nil.mp he with ⟨h1, _⟩
        exact absurd h1 (by decide)
  · exact ⟨buildSalaryBase_ne caps, buildSalaryBase_head caps, buildSalaryBase_tail caps hns⟩

/-- The claim's field invariant for optional strings: absent, or a
non-empty string with no leading or trailing whitespace. -/
def strFieldOk : Option String → Prop
  | none => True
  | some s => s ≠ "" ∧ headOkL s.toList ∧ tailOkL s.toList

/-- The claim's field invariant for the metadata-passthrough fields:
absent, or a non-empty string (as a JSON value) with no leading or
trailing whitespace. -/
def jsonFieldOk : Option JVal → Prop
  | none => True
  | some (.str s) => s ≠ "" ∧ headOkL s.toList ∧ tailOkL s.toList
  | some _ => False

theorem headOkL_of_head {l : List Char} {a : Char} (h : l.head? = some a)
    (ha : pySpace a = false) : headOkL l := by
  intro c hc
  rw [h] at hc
  have hac : a = c := Option.some.inj hc
  rw [← hac]
  exact ha

theorem tailOkL_of_last {l : List Char} {a : Char} (h : l.getLast? = some a)
    (ha : pySpace a = false) : tailOkL l := by
  intro c hc
  rw [h] at hc
  have hac : a = c := Option.some.inj hc
  rw [← hac]
  exact ha

theorem headOk_append_left {l₁ l₂ : List Char} (h1 : headOkL l₁) (hne : l₁ ≠ []) :
    headOkL (l₁ ++ l₂) := by
  intro c hc
  cases l₁ with
  | nil => exact absurd rfl hne
  | cons a t =>
    simp only [List.cons_append, List.head?_cons, Option.some.injEq] at hc
    rw [← hc]
    exact h1 a rfl

theorem strFieldOk_lit {s : String} {a b : Char} (h1 : s.toList.head? = some a)
    (h2 : s.toList.getLast? = some b) (ha : pySpace a = false) (hb : pySpace b = false) :
    strFieldOk (some s) := by
  refine ⟨?_, headOkL_of_head h1 ha, tailOkL_of_last h2 hb⟩
  intro he
  rw [he] at h1
  exact Option.noConfusion h1

/-- A text-derived salary is a trimmed non-empty string. -/
theorem salaryFromText_good {text s : String} (h : salaryFromText text = some s) :
    s ≠ "" ∧ headOkL s.toList ∧ tailOkL s.toList := by
  have hor : salaryFromText text
      = ((searchRe salPat1 text).map buildSalary).or
          ((searchRe salPat2 text).map buildSalary) := by
    unfold salaryFromText salary_patterns
    rw [List.findSome?_cons, List.findSome?_cons]
    cases searchRe salPat1 text with
    | some caps => rfl
    | none =>
      cases searchRe salPat2 text with
      | some caps => rfl
      | none => rfl
  rw [hor] at h
  cases h1 : searchRe salPat1 text with
  | some caps =>
    rw [h1] at h
    have hs : s = buildSalary caps := by simpa using h.symm
    subst hs
    exact buildSalary_good caps (searchRe_caps_nospace grpFree_salPat1 h1)
  | none =>
    rw [h1] at h
    simp only [Option.map_none', Option.none_or] at h
    cases h2 : searchRe salPat2 text with
    | some caps =>
      rw [h2] at h
      have hs : s = buildSalary caps := by simpa using h.symm
      subst hs
      exact buildSalary_good caps (searchRe_caps_nospace grpFree_salPat2 h2)
    | none =>
      rw [h2] at h
      simp at h

/-- The extracted work arrangement is a trimmed non-empty string. -/
theorem workArrFromText_good (text : String) : strFieldOk (workArrFromText text) := by
  simp only [workArrFromText]
  by_cases hA : (occursIn "remote".toList (lowerL text.toList)
      && !occursIn "hybrid".toList (lowerL text.toList)) = true
  · rw [if_pos hA]
    exact @strFieldOk_lit "Remote" 'R' 'e' rfl rfl (by decide) (by decide)
  · rw [if_neg hA]
    by_cases hB : occursIn "hybrid".toList (lowerL text.toList) = true
    · rw [if_pos hB]
      cases hs : searchRe hybridPat text with
      | some caps =>
        refine ⟨?_, ?_, ?_⟩
        · intro he
          have hl := congrArg String.toList he
          rw [toList_append] at hl
          rcases List.append_eq_nil.mp hl with ⟨_, h2⟩
          exact absurd h2 (by decide)
        · rw [toList_append, toList_append, List.append_assoc]
          refine headOk_append_left ?_ (by decide)
          exact headOkL_of_head rfl (by decide)
        · rw [toList_append]
          refine tailOk_append_ne ?_ (by decide)
          exact tailOkL_of_last rfl (by decide)
      | none => exact @strFieldOk_lit "Hybrid" 'H' 'd' rfl rfl (by decide) (by decide)
    · rw [if_neg hB]
      by_cases hC : (occursIn "on-site".toList (lowerL text.toList)
          || occursIn "onsite".toList (lowerL text.toList)
          || occursIn "in-office".toList (lowerL text.toList)) = true
      · rw [if_pos hC]
        exact @strFieldOk_lit "On-site" 'O' 'e' rfl rfl (by decide) (by decide)
      · rw [if_neg hC]
        trivial

/-- **C3, counterexample.**  Metadata values flow into the record
unvalidated: with `structuredMetadata = {"title": ""}`, the extracted
title is the empty string — neither absent nor a non-empty trimmed
string — refuting the invariant as stated for arbitrary metadata. -/
theorem c3_empty_title_passthrough :
    (extract_basic_info "" [("title", JVal.str "")]).title = some (JVal.str "") ∧
    ¬ jsonFieldOk (extract_basic_info "" [("title", JVal.str "")]).title := by
  constructor
  · rfl
  · intro hok
    have e : (extract_basic_info "" [("title", JVal.str "")]).title
        = some (JVal.str "") := rfl
    rw [e] at hok
    exact hok.1 rfl

/-- **C3, amended.**  When the structured metadata is empty, every
field of `extract_basic_info` is either absent or a non-empty string
with no leading or trailing whitespace: the four metadata-passthrough
fields are absent, and the two text-derived fields (`salary`,
`work_arrangement`) are trimmed non-empty strings when present.  (The
counterexample shows the unrestricted claim fails because
metadata-supplied values are passed through unvalidated.) -/
theorem c3_fields_absent_or_trimmed (text : String) :
    (extract_basic_info text []).title = none ∧
    (extract_basic_info text []).company = none ∧
    (extract_basic_info text []).location = none ∧
    (extract_basic_info text []).employment_type = none ∧
    strFieldOk (extract_basic_info text []).salary ∧
    strFieldOk (extract_basic_info text []).work_arrangement := by
  refine ⟨rfl, rfl, rfl, rfl, ?_, ?_⟩
  · have e : (extract_basic_info text []).salary = salaryFromText text := rfl
    rw [e]
    cases hs : salaryFromText text with
    | none => trivial
    | some s => exact salaryFromText_good hs
  · have e : (extract_basic_info text []).work_arrangement = workArrFromText text := rfl
    rw [e]
    exact workArrFromText_good text
